import Mathlib

/-!
# Verification of the fermi-estimator Monte-Carlo core (`src/lib/monte-carlo.ts`)

Shallow embedding of the graph evaluation and sampling engine.

Conventions of the embedding:
* JavaScript numbers are modelled by `JNum`: an exact rational (every finite
  IEEE double is rational) extended with `inf`, `ninf` and `nan`, and the
  arithmetic/comparison operators follow the JS (IEEE-754, `-0` identified
  with `0`) semantics at the precision level the spec reasons at
  (exact real arithmetic, no rounding).
* `Math.random()` is modelled by an abstract stream `u : ℕ → ℚ` of draws in
  `[0,1)` together with a counter that is threaded through evaluation.
* Host functions that are transcendental (`Math.sqrt`, `Math.log`, the
  Box–Muller combination `sqrt(-2 ln u₁)·cos(2π u₂)`, `Math.pow`, …) and the
  two dynamic-code-generation evaluators (`new Function` in `evaluateFormula`
  and `evaluateCustomExpression`) cannot be written as computable rational
  functions; they are abstracted as fields of a `HostOps` record that is
  passed to every definition.  All theorems quantify over the record, so they
  hold for the actual host functions.
-/

/-- A JavaScript `number`: a finite value (exact), `Infinity`, `-Infinity`
or `NaN`.  `-0` is identified with `0`. -/
inductive JNum where
  | num (q : ℚ)
  | inf
  | ninf
  | nan
deriving DecidableEq, Repr

namespace JNum

/-- JS addition. -/
def jadd : JNum → JNum → JNum
  | num a, num b => num (a + b)
  | num _, inf => inf
  | num _, ninf => ninf
  | inf, num _ => inf
  | ninf, num _ => ninf
  | inf, inf => inf
  | ninf, ninf => ninf
  | inf, ninf => nan
  | ninf, inf => nan
  | _, _ => nan

/-- JS negation. -/
def jneg : JNum → JNum
  | num a => num (-a)
  | inf => ninf
  | ninf => inf
  | nan => nan

/-- JS subtraction (`a - b = a + (-b)` in IEEE-754, `-0` ignored). -/
def jsub (a b : JNum) : JNum := jadd a (jneg b)

/-- JS multiplication. -/
def jmul : JNum → JNum → JNum
  | num a, num b => num (a * b)
  | num a, inf => if a = 0 then nan else if 0 < a then inf else ninf
  | num a, ninf => if a = 0 then nan else if 0 < a then ninf else inf
  | inf, num b => if b = 0 then nan else if 0 < b then inf else ninf
  | ninf, num b => if b = 0 then nan else if 0 < b then ninf else inf
  | inf, inf => inf
  | ninf, ninf => inf
  | inf, ninf => ninf
  | ninf, inf => ninf
  | _, _ => nan

/-- JS division (`-0` identified with `0`). -/
def jdiv : JNum → JNum → JNum
  | num a, num b =>
      if b = 0 then (if a = 0 then nan else if 0 < a then inf else ninf)
      else num (a / b)
  | num _, inf => num 0
  | num _, ninf => num 0
  | inf, num b => if 0 ≤ b then inf else ninf
  | ninf, num b => if 0 ≤ b then ninf else inf
  | inf, inf => nan
  | inf, ninf => nan
  | ninf, inf => nan
  | ninf, ninf => nan
  | _, _ => nan

/-- JS `<` (any comparison involving `NaN` is false). -/
def jlt : JNum → JNum → Bool
  | num a, num b => decide (a < b)
  | num _, inf => true
  | num _, ninf => false
  | inf, num _ => false
  | ninf, num _ => true
  | inf, inf => false
  | ninf, ninf => false
  | ninf, inf => true
  | inf, ninf => false
  | _, _ => false

/-- JS `>`. -/
def jgt (a b : JNum) : Bool := jlt b a

/-- JS `<=` (false on `NaN`). -/
def jle : JNum → JNum → Bool
  | num a, num b => decide (a ≤ b)
  | num _, inf => true
  | num _, ninf => false
  | inf, num _ => false
  | ninf, num _ => true
  | inf, inf => true
  | ninf, ninf => true
  | ninf, inf => true
  | inf, ninf => false
  | _, _ => false

/-- JS `>=`. -/
def jge (a b : JNum) : Bool := jle b a

/-- `Math.min` (returns `NaN` if either argument is `NaN`). -/
def jmin : JNum → JNum → JNum
  | num a, num b => num (min a b)
  | num a, inf => num a
  | num _, ninf => ninf
  | inf, num b => num b
  | ninf, num _ => ninf
  | inf, inf => inf
  | ninf, ninf => ninf
  | inf, ninf => ninf
  | ninf, inf => ninf
  | _, _ => nan

/-- `Math.max` (returns `NaN` if either argument is `NaN`). -/
def jmax : JNum → JNum → JNum
  | num a, num b => num (max a b)
  | num _, inf => inf
  | num a, ninf => num a
  | inf, num _ => inf
  | ninf, num b => num b
  | inf, inf => inf
  | ninf, ninf => ninf
  | inf, ninf => inf
  | ninf, inf => inf
  | _, _ => nan

/-- `Math.abs`. -/
def jabs : JNum → JNum
  | num a => num |a|
  | inf => inf
  | ninf => inf
  | nan => nan

/-- `Math.ceil`. -/
def jceil : JNum → JNum
  | num a => num ⌈a⌉
  | inf => inf
  | ninf => ninf
  | nan => nan

/-- `Math.floor`. -/
def jfloor : JNum → JNum
  | num a => num ⌊a⌋
  | inf => inf
  | ninf => ninf
  | nan => nan

/-- `Math.round` (JS rounds half-way cases toward `+∞`: `floor (x + 1/2)`). -/
def jround : JNum → JNum
  | num a => num ⌊a + 1/2⌋
  | inf => inf
  | ninf => ninf
  | nan => nan

/-- `isFinite(value) && !isNaN(value)` — true exactly on finite values. -/
def isFiniteJS : JNum → Bool
  | num _ => true
  | _ => false

/-- JS truthiness coercion `value || 0` applied to a number (`0`, `-0` and
`NaN` are falsy). -/
def orZero (v : JNum) : JNum := if v = nan then num 0 else v

/-- The total order used to model `Array.prototype.sort((a, b) => a - b)`;
on finite values it is the numeric order.  JS leaves the sort order
unspecified when the comparator returns `NaN`, so the placement of `nan`
(below everything) is an arbitrary but fixed choice; all sample lists the
program sorts contain only finite values. -/
def jleB : JNum → JNum → Bool
  | nan, _ => true
  | _, nan => false
  | ninf, _ => true
  | _, ninf => false
  | num a, num b => decide (a ≤ b)
  | num _, inf => true
  | inf, num _ => false
  | inf, inf => true

end JNum

open JNum

/-- The host (JavaScript runtime) functions the engine calls but which are
not expressible as computable rational functions: transcendental math
functions and the two dynamic-code evaluation paths.  Each field is the
abstract graph of the corresponding host function; theorems quantify over
the record. -/
structure HostOps where
  /-- `Math.sqrt(-2 * Math.log u1) * Math.cos(2 * Math.PI * u2)` — the
  Box–Muller combination of two uniform draws in `randomNormal`. -/
  boxMuller : ℚ → ℚ → ℚ
  /-- `Math.log` restricted to the positive arguments `max(min, 0.0001)`,
  `max(max, 0.0001)` used by `sampleLognormal`. -/
  logPos : ℚ → ℚ
  /-- `Math.exp` on the finite log-space deviate in `sampleLognormal`. -/
  expQ : ℚ → ℚ
  /-- `Math.sqrt` (as used on `number` values: `applyFunction`, `calculateStats`). -/
  sqrt : JNum → JNum
  /-- `Math.exp` on `number` values (`applyFunction`). -/
  exp : JNum → JNum
  /-- `Math.log`. -/
  log : JNum → JNum
  /-- `Math.log10`. -/
  log10 : JNum → JNum
  /-- `Math.log2`. -/
  log2 : JNum → JNum
  /-- `Math.sin`. -/
  sin : JNum → JNum
  /-- `Math.cos`. -/
  cos : JNum → JNum
  /-- `Math.tan`. -/
  tan : JNum → JNum
  /-- `Math.pow`. -/
  pow : JNum → ℚ → JNum
  /-- `evaluateCustomExpression expr x`: the custom-function path rewrites the
  expression text and hands it to `new Function` (host code generation); the
  whole evaluator is abstracted here.  It already returns the `NaN` sentinel
  on any failure, per the source. -/
  customEval : String → JNum → JNum
  /-- JS number-to-string conversion used when splicing a binding value into a
  formula as `(${value})`. -/
  printNum : ℚ → String
  /-- `new Function('return ' ++ code)()` on a sanitized arithmetic string
  (the legacy `evaluateFormula` path); `none` models a thrown exception, and
  a non-`number` return value is folded into the non-finite case by the
  caller's `typeof` check. -/
  evalArith : String → Option JNum

/-- A concrete instantiation of `HostOps` used by closed witnesses and
counterexamples (the identity/zero interpretation). -/
def trivialOps : HostOps where
  boxMuller := fun _ _ => 0
  logPos := fun q => q
  expQ := fun q => q
  sqrt := fun v => v
  exp := fun v => v
  log := fun v => v
  log10 := fun v => v
  log2 := fun v => v
  sin := fun v => v
  cos := fun v => v
  tan := fun v => v
  pow := fun v _ => v
  customEval := fun _ v => v
  printNum := fun _ => ""
  evalArith := fun _ => none

/-! ## Distribution sampler (`randomNormal`, `sampleUniform`, `sampleNormal`,
`sampleLognormal`, `sampleAssumption`)

Each sampler takes the uniform stream `u` and the current draw counter and
returns the sampled value together with the advanced counter. -/

/-- `randomNormal(mean, stdDev)`: consumes two uniform draws and applies the
Box–Muller transform (`z0 * stdDev + mean`). -/
def randomNormal (ops : HostOps) (u : ℕ → ℚ) (ctr : ℕ) (mean stdDev : ℚ) : ℚ × ℕ :=
  (ops.boxMuller (u ctr) (u (ctr + 1)) * stdDev + mean, ctr + 2)

/-- `sampleUniform(min, max) = min + Math.random() * (max - min)`. -/
def sampleUniform (u : ℕ → ℚ) (ctr : ℕ) (lo hi : ℚ) : ℚ × ℕ :=
  (lo + u ctr * (hi - lo), ctr + 1)

/-- The do/while rejection loop of `sampleNormal`.  The loop body has already
run once when the guard is first tested, so `sampleNormal` enters with
`fuel = 99`: one initial draw plus at most 99 re-draws = 100 attempts. -/
def sampleNormalGo (ops : HostOps) (u : ℕ → ℚ) (mean stdDev lo hi : ℚ) :
    ℕ → ℕ → ℚ × ℕ
  | ctr, fuel =>
    let r := randomNormal ops u ctr mean stdDev
    match fuel with
    | f + 1 => if r.1 < lo ∨ hi < r.1 then
          sampleNormalGo ops u mean stdDev lo hi r.2 f
        else (r.1, r.2)
    | 0 => (r.1, r.2)

/-- `sampleNormal(min, max)`: truncated-normal rejection sampling
(mean `(min+max)/2`, stdDev `(max-min)/4`, at most 100 attempts) followed by
the final clamp `Math.max(min, Math.min(max, value))`. -/
def sampleNormal (ops : HostOps) (u : ℕ → ℚ) (ctr : ℕ) (lo hi : ℚ) : ℚ × ℕ :=
  let mean := (lo + hi) / 2
  let stdDev := (hi - lo) / 4
  let r := sampleNormalGo ops u mean stdDev lo hi ctr 99
  (max lo (min hi r.1), r.2)

/-- `sampleLognormal(min, max)`: draws a normal deviate in log space and
clamps `Math.exp` of it into `[min, max]`. -/
def sampleLognormal (ops : HostOps) (u : ℕ → ℚ) (ctr : ℕ) (lo hi : ℚ) : ℚ × ℕ :=
  let logMin := ops.logPos (max lo 0.0001)
  let logMax := ops.logPos (max hi 0.0001)
  let logMean := (logMin + logMax) / 2
  let logStdDev := (logMax - logMin) / 4
  let r := randomNormal ops u ctr logMean logStdDev
  let value := ops.expQ r.1
  (max lo (min hi value), r.2)

/-- Distribution kinds (`'uniform' | 'normal' | 'lognormal'`). -/
inductive Distribution where
  | uniform
  | normal
  | lognormal
deriving DecidableEq, Repr

/-- An `Assumption` record as consumed by `sampleAssumption` (the `id` and
`name` fields are carried but unused by sampling). -/
structure Assumption where
  id : String
  name : String
  min : ℚ
  max : ℚ
  distribution : Distribution
deriving DecidableEq, Repr

/-- `sampleAssumption`: dispatch on the distribution tag.  The source's
`default` branch (fall back to uniform) is unreachable for the closed union
type. -/
def sampleAssumption (ops : HostOps) (u : ℕ → ℚ) (ctr : ℕ) (a : Assumption) : ℚ × ℕ :=
  match a.distribution with
  | .uniform => sampleUniform u ctr a.min a.max
  | .normal => sampleNormal ops u ctr a.min a.max
  | .lognormal => sampleLognormal ops u ctr a.min a.max

/-! ## Legacy expression evaluator (`evaluateFormula`)

The name substitution (`new RegExp("\\b" + escapeRegex(name) + "\\b", "g")`)
is embedded directly: `escapeRegex` only makes the name match literally,
which is what the embedding does anyway, and `\b` is the JS word boundary
(a position where exactly one neighbour is a word character `[A-Za-z0-9_]`).
The final `new Function` call is the abstract `HostOps.evalArith`. -/

/-- JS regex word character (`\w`). -/
def isWordChar (c : Char) : Bool := c.isAlpha || c.isDigit || c = '_'

/-- JS regex word boundary `\b` between an optional previous and next
character (out-of-string counts as a non-word side). -/
def wordBoundary (prev next : Option Char) : Bool :=
  (prev.elim false isWordChar) != (next.elim false isWordChar)

/-- Global replacement of `\b name \b` by `repl`, scanning left to right and
resuming after each replacement, exactly like `String.replace` with a global
regex.  `prev` is the character before the current position. -/
def replaceWB (name repl : List Char) (prev : Option Char) : List Char → List Char
  | [] => []
  | c :: rest =>
    if h : name ≠ [] ∧ name.isPrefixOf (c :: rest) ∧
        wordBoundary prev name.head? ∧
        wordBoundary name.getLast? ((c :: rest).drop name.length).head? then
      repl ++ replaceWB name repl name.getLast? ((c :: rest).drop name.length)
    else
      c :: replaceWB name repl (some c) rest
termination_by l => l.length
decreasing_by
  · simp only [List.length_drop, List.length_cons]
    have : 1 ≤ name.length := List.length_pos.mpr h.1
    omega
  · simp

/-- One global word-bounded replacement on strings. -/
def replaceAllWB (s : String) (name repl : String) : String :=
  ⟨replaceWB name.data repl.data none s.data⟩

/-- The substitution loop of `evaluateFormula`: names sorted longest first
(`sort((a, b) => b.length - a.length)`, a stable sort), each replaced by its
parenthesized printed value. -/
def substituteNames (ops : HostOps) (formula : String)
    (bindings : List (String × ℚ)) : String :=
  let sortedNames :=
    (bindings.map Prod.fst).mergeSort (fun a b => b.length ≤ a.length)
  sortedNames.foldl
    (fun expression name =>
      let value := ((bindings.lookup name).getD 0)
      replaceAllWB expression name ("(" ++ ops.printNum value ++ ")"))
    formula

/-- The sanitization `expression.replace(/[^0-9+\-*\/().e\s]/gi, '')`:
every character outside digits, `+ - * / ( ) .`, `e`/`E` and whitespace is
stripped. -/
def allowedFormulaChar (c : Char) : Bool :=
  c.isDigit || c = '+' || c = '-' || c = '*' || c = '/' || c = '(' ||
    c = ')' || c = '.' || c = 'e' || c = 'E' || c.isWhitespace

/-- Strip disallowed characters from the substituted expression. -/
def sanitizeFormula (s : String) : String :=
  ⟨s.data.filter allowedFormulaChar⟩

/-- `evaluateFormula(formula, assumptionValues)`: substitute, sanitize,
evaluate on the host; a thrown exception or a non-finite (or non-number)
result becomes the `NaN` sentinel. -/
def evaluateFormula (ops : HostOps) (formula : String)
    (bindings : List (String × ℚ)) : JNum :=
  let expression := substituteNames ops formula bindings
  let sanitized := sanitizeFormula expression
  match ops.evalArith sanitized with
  | none => JNum.nan
  | some result => if isFiniteJS result then result else JNum.nan

/-! ## Graph data model -/

/-- `OperationType` (`'multiply' | 'divide' | 'add' | 'subtract' | 'sum' | 'product'`). -/
inductive OperationType where
  | multiply
  | divide
  | add
  | subtract
  | sum
  | product
deriving DecidableEq, Repr

/-- `FunctionType`: the 17 function tags of the function node. -/
inductive FunctionType where
  | sqrt
  | square
  | pow
  | exp
  | log
  | log10
  | log2
  | abs
  | ceil
  | floor
  | round
  | sin
  | cos
  | tan
  | min
  | max
  | custom
deriving DecidableEq, Repr

/-- `ComparisonType` (`'gt' | 'gte' | 'lt' | 'lte' | 'eq' | 'neq'`). -/
inductive ComparisonType where
  | gt
  | gte
  | lt
  | lte
  | eq
  | neq
deriving DecidableEq, Repr

/-- The kind tag (`node.type`) together with the kind-specific `node.data`
fields read by the evaluator.  `other` stands for any unrecognized type
string, handled by the final `else` branch (value 0). -/
inductive NodeData where
  | assumption (name : String) (min max : ℚ) (distribution : Distribution)
  | constant (value : ℚ)
  | operation (operation : OperationType)
  | function (function : FunctionType) (parameter : Option (ℚ ⊕ String))
  | conditional (comparison : ComparisonType)
  | clamp (min max : Option ℚ)
  | result
  | other
deriving DecidableEq, Repr

/-- A graph node. -/
structure Node where
  id : String
  data : NodeData
deriving DecidableEq, Repr

/-- A graph edge (`source`, `target`, optional `targetHandle`). -/
structure Edge where
  source : String
  target : String
  targetHandle : Option String
deriving DecidableEq, Repr

/-- A `GraphEstimate` restricted to the fields the simulation reads. -/
structure Graph where
  nodes : List Node
  edges : List Edge
deriving DecidableEq, Repr

/-- An entry of the `incomingEdges` adjacency map:
`{ sourceId: edge.source, handle: edge.targetHandle || undefined }`. -/
structure IncEdge where
  sourceId : String
  handle : Option String
deriving DecidableEq, Repr

/-- `edge.targetHandle || undefined`: the empty string is falsy and becomes
`undefined`. -/
def normalizeHandle : Option String → Option String
  | some s => if s = "" then none else some s
  | none => none

/-- The `incomingEdges` entry for `nodeId`: all edges targeting it, in edge
array order (the `Map` groups pushes by target preserving relative order). -/
def incomingOf (g : Graph) (nodeId : String) : List IncEdge :=
  (g.edges.filter (fun e => e.target = nodeId)).map
    (fun e => ⟨e.source, normalizeHandle e.targetHandle⟩)

/-- `node.type === 'result'`. -/
def Node.isResult (n : Node) : Bool :=
  match n.data with
  | .result => true
  | _ => false

/-! ## Scalar function library -/

/-- JS strict equality `===` on numbers (`NaN === x` is false for every `x`). -/
def jeqJS : JNum → JNum → Bool
  | .num a, .num b => decide (a = b)
  | .inf, .inf => true
  | .ninf, .ninf => true
  | _, _ => false

/-- `applyComparison(a, b, comparison)`.  The source's `default: false`
branch is unreachable for the closed union. -/
def applyComparison (a b : JNum) : ComparisonType → Bool
  | .gt => jgt a b
  | .gte => jge a b
  | .lt => jlt a b
  | .lte => jle a b
  | .eq => jeqJS a b
  | .neq => !jeqJS a b

/-- `applyFunction(func, input, inputB?, parameter?)`.  `inputB = none`
models a call without a second argument, in which case `inputB ?? input`
falls back to `input`.  `Math.pow(x, 2)` on `square` is written as the exact
square `input * input` (the source literally multiplies). -/
def applyFunction (ops : HostOps) (func : FunctionType) (input : JNum)
    (inputB : Option JNum) (parameter : Option (ℚ ⊕ String)) : JNum :=
  match func with
  | .sqrt => ops.sqrt input
  | .square => jmul input input
  | .pow => ops.pow input (match parameter with | some (.inl n) => n | _ => 2)
  | .exp => ops.exp input
  | .log => ops.log input
  | .log10 => ops.log10 input
  | .log2 => ops.log2 input
  | .abs => jabs input
  | .ceil => jceil input
  | .floor => jfloor input
  | .round => jround input
  | .sin => ops.sin input
  | .cos => ops.cos input
  | .tan => ops.tan input
  | .min => jmin input (inputB.getD input)
  | .max => jmax input (inputB.getD input)
  | .custom =>
    match parameter with
    | some (.inr expr) => ops.customEval expr input
    | _ => input

/-! ## Graph evaluator (`computeNodeValue` and `runGraphSimulation`)

The TS recursion has no cycle guard, so the embedding adds a fuel counter
decremented once per (non-memoized or memoized) call; `none` signals fuel
exhaustion, which in the source corresponds to unbounded recursion.  The
per-iteration memo `iterationValues : Map<string, number>` is an
insertion-ordered association list, and the `Math.random` counter is
threaded alongside it. -/

/-- Insertion-ordered association-list lookup (models `Map.get`). -/
def keyLookup {α : Type} : List (String × α) → String → Option α
  | [], _ => none
  | (k, v) :: rest, id => if k = id then some v else keyLookup rest id

/-- The per-iteration evaluation state: the iteration cache plus the
position in the `Math.random` stream. -/
structure EvalState where
  cache : List (String × JNum)
  ctr : ℕ
deriving DecidableEq, Repr

/-- `iterationValues.set(nodeId, value)`.  In every terminating run each id
is set at most once (a second set would require the node to be its own
strict descendant, i.e. a cycle, which exhausts the fuel first), so
appending reproduces `Map` insertion-order semantics. -/
def cacheSet (cache : List (String × JNum)) (nodeId : String) (v : JNum) :
    List (String × JNum) :=
  cache ++ [(nodeId, v)]

/-- The type of the recursive evaluation call threaded through the
input-resolution loops below. -/
abbrev ComputeFn := String → EvalState → Option (JNum × EvalState)

/-- The operation node's input loop: each edge's source is evaluated; the
edge with handle `'a'` — or an untagged edge at index 0 — supplies `inputA`,
any other edge supplies `inputB`. -/
def resolveOpInputs (f : ComputeFn) :
    List IncEdge → Bool → JNum → JNum → EvalState →
      Option (JNum × JNum × EvalState)
  | [], _, a, b, st => some (a, b, st)
  | e :: rest, isFirst, a, b, st =>
    match f e.sourceId st with
    | none => none
    | some (v, st') =>
      if e.handle = some "a" ∨ (e.handle = none ∧ isFirst) then
        resolveOpInputs f rest false v b st'
      else
        resolveOpInputs f rest false a v st'

/-- The function node's input loop: handle `'a'`, `'input'` or an untagged
first edge supplies `inputA`, anything else `inputB`. -/
def resolveFnInputs (f : ComputeFn) :
    List IncEdge → Bool → JNum → JNum → EvalState →
      Option (JNum × JNum × EvalState)
  | [], _, a, b, st => some (a, b, st)
  | e :: rest, isFirst, a, b, st =>
    match f e.sourceId st with
    | none => none
    | some (v, st') =>
      if e.handle = some "a" ∨ e.handle = some "input" ∨
          (e.handle = none ∧ isFirst) then
        resolveFnInputs f rest false v b st'
      else
        resolveFnInputs f rest false a v st'

/-- The conditional node's input loop over the four named ports; an edge
whose handle matches none of them is still evaluated (for its memoization
side effect) but its value is discarded. -/
def resolveCondInputs (f : ComputeFn) :
    List IncEdge → JNum × JNum × JNum × JNum → EvalState →
      Option ((JNum × JNum × JNum × JNum) × EvalState)
  | [], vals, st => some (vals, st)
  | e :: rest, (a, b, t, e'), st =>
    match f e.sourceId st with
    | none => none
    | some (v, st') =>
      let vals :=
        if e.handle = some "a" then (v, b, t, e')
        else if e.handle = some "b" then (a, v, t, e')
        else if e.handle = some "then" then (a, b, v, e')
        else if e.handle = some "else" then (a, b, t, v)
        else (a, b, t, e')
      resolveCondInputs f rest vals st'

/-- `incoming.reduce((acc, edge) => op(acc, computeNodeValue(edge.sourceId)), seed)`
— the n-ary `sum` / `product` fold. -/
def foldCompute (f : ComputeFn) (op : JNum → JNum → JNum) :
    List IncEdge → JNum → EvalState → Option (JNum × EvalState)
  | [], acc, st => some (acc, st)
  | e :: rest, acc, st =>
    match f e.sourceId st with
    | none => none
    | some (v, st') => foldCompute f op rest (op acc v) st'

/-- `computeNodeValue(nodeId, iterationValues)`: memoized recursive
evaluation of one node for one iteration.  A missing node returns 0
*without* being cached (the early `if (!node) return 0`); every other
branch caches its value before returning. -/
def computeNodeValue (g : Graph) (ops : HostOps) (u : ℕ → ℚ) :
    ℕ → String → EvalState → Option (JNum × EvalState)
  | 0, _, _ => none
  | fuel + 1, nodeId, st =>
    match keyLookup st.cache nodeId with
    | some v => some (v, st)
    | none =>
      match g.nodes.find? (fun n => n.id = nodeId) with
      | none => some (num 0, st)
      | some node =>
        let res : Option (JNum × EvalState) :=
          match node.data with
          | .assumption name mn mx dist =>
            let r := sampleAssumption ops u st.ctr ⟨nodeId, name, mn, mx, dist⟩
            some (num r.1, { st with ctr := r.2 })
          | .constant value => some (num value, st)
          | .operation op =>
            match resolveOpInputs (fun id s => computeNodeValue g ops u fuel id s)
                (incomingOf g nodeId) true (num 0) (num 0) st with
            | none => none
            | some (inputA, inputB, st') =>
              match op with
              | .multiply => some (jmul inputA inputB, st')
              | .divide =>
                some (if !jeqJS inputB (num 0) then jdiv inputA inputB else num 0, st')
              | .add => some (jadd inputA inputB, st')
              | .subtract => some (jsub inputA inputB, st')
              | .sum =>
                foldCompute (fun id s => computeNodeValue g ops u fuel id s) jadd
                  (incomingOf g nodeId) (num 0) st'
              | .product =>
                foldCompute (fun id s => computeNodeValue g ops u fuel id s) jmul
                  (incomingOf g nodeId) (num 1) st'
          | .function func param =>
            match resolveFnInputs (fun id s => computeNodeValue g ops u fuel id s)
                (incomingOf g nodeId) true (num 0) (num 0) st with
            | none => none
            | some (inputA, inputB, st') =>
              some (applyFunction ops func inputA (some inputB) param, st')
          | .conditional cmp =>
            match resolveCondInputs (fun id s => computeNodeValue g ops u fuel id s)
                (incomingOf g nodeId) (num 0, num 0, num 0, num 0) st with
            | none => none
            | some ((a, b, t, e), st') =>
              some (if applyComparison a b cmp then t else e, st')
          | .clamp mn mx =>
            match incomingOf g nodeId with
            | [] => some (num 0, st)
            | e0 :: _ =>
              match computeNodeValue g ops u fuel e0.sourceId st with
              | none => none
              | some (v0, st') =>
                let v1 := match mn with | some m => jmax v0 (num m) | none => v0
                let v2 := match mx with | some m => jmin v1 (num m) | none => v1
                some (v2, st')
          | .result =>
            match incomingOf g nodeId with
            | [] => some (num 0, st)
            | e0 :: _ => computeNodeValue g ops u fuel e0.sourceId st
          | .other => some (num 0, st)
        match res with
        | none => none
        | some (value, st') =>
          some (value, { st' with cache := cacheSet st'.cache nodeId value })

/-! ## Statistics aggregator (`calculateStats`) -/

/-- The five reported percentiles. -/
structure SimPercentiles where
  p5 : JNum
  p25 : JNum
  p50 : JNum
  p75 : JNum
  p95 : JNum
deriving DecidableEq, Repr

/-- `SimulationResult` (also the `Omit<NodeSimulationResult, 'nodeId'>`
shape returned by `calculateStats`). -/
structure SimulationResult where
  samples : List JNum
  percentiles : SimPercentiles
  mean : JNum
  stdDev : JNum
deriving DecidableEq, Repr

/-- `NodeSimulationResult`. -/
structure NodeSimulationResult where
  nodeId : String
  samples : List JNum
  percentiles : SimPercentiles
  mean : JNum
  stdDev : JNum
deriving DecidableEq, Repr

/-- The all-zero summary returned for empty inputs. -/
def emptySimResult : SimulationResult :=
  ⟨[], ⟨num 0, num 0, num 0, num 0, num 0⟩, num 0, num 0⟩

/-- `getPercentile(p) = sorted[Math.min(Math.floor(p/100 * n), n - 1)] || 0`. -/
def getPercentileOf (sorted : List JNum) (p : ℚ) : JNum :=
  let index : ℤ := ⌊p / 100 * sorted.length⌋
  orZero (sorted.getD (min index ((sorted.length : ℤ) - 1)).toNat (num 0))

/-- `calculateStats(samples)`: empty input short-circuits to the all-zero
summary; otherwise mean, population variance (divide by `n`),
`stdDev = Math.sqrt(variance)` and the five nearest-rank percentiles of the
ascending sort are computed. -/
def calculateStats (ops : HostOps) (samples : List JNum) : SimulationResult :=
  if samples.length = 0 then emptySimResult
  else
    let sorted := samples.mergeSort jleB
    let mean := jdiv (samples.foldl jadd (num 0)) (num samples.length)
    let variance :=
      jdiv (samples.foldl (fun s v => jadd s (jmul (jsub v mean) (jsub v mean)))
          (num 0))
        (num samples.length)
    { samples := samples
      percentiles :=
        ⟨getPercentileOf sorted 5, getPercentileOf sorted 25,
          getPercentileOf sorted 50, getPercentileOf sorted 75,
          getPercentileOf sorted 95⟩
      mean := mean
      stdDev := ops.sqrt variance }

/-! ## The full simulation run (`runGraphSimulation`) -/

/-- `nodeSamples` initialization: one empty accumulator per node id (a
duplicate id collapses to a single `Map` entry). -/
def initSamples (g : Graph) : List (String × List JNum) :=
  g.nodes.foldl
    (fun acc n => if (keyLookup acc n.id).isSome then acc else acc ++ [(n.id, [])])
    []

/-- `nodeSamples.get(nodeId)?.push(value)`: appends to the accumulator of
`nodeId` if one exists, and does nothing otherwise. -/
def pushSample (acc : List (String × List JNum)) (id : String) (v : JNum) :
    List (String × List JNum) :=
  acc.map (fun p => if p.1 = id then (p.1, p.2 ++ [v]) else p)

/-- The post-iteration harvest: every `(nodeId, value)` of the iteration
cache whose value is finite is appended to that node's accumulator. -/
def accumulate (cache : List (String × JNum)) (acc : List (String × List JNum)) :
    List (String × List JNum) :=
  cache.foldl (fun a p => if isFiniteJS p.2 then pushSample a p.1 p.2 else a) acc

/-- The iteration loop: each iteration evaluates the result node with a
fresh cache (the random counter persists across iterations, like the global
`Math.random`), then harvests the cache. -/
def runIterations (g : Graph) (ops : HostOps) (u : ℕ → ℚ) (fuel : ℕ)
    (resultId : String) :
    ℕ → ℕ → List (String × List JNum) →
      Option (List (String × List JNum) × ℕ)
  | 0, ctr, acc => some (acc, ctr)
  | n + 1, ctr, acc =>
    match computeNodeValue g ops u fuel resultId ⟨[], ctr⟩ with
    | none => none
    | some (_, st) =>
      runIterations g ops u fuel resultId n st.ctr (accumulate st.cache acc)

/-- The pair returned by `runGraphSimulation`. -/
structure GraphSimOutput where
  finalResult : SimulationResult
  nodeResults : List (String × NodeSimulationResult)
deriving DecidableEq, Repr

/-- `runGraphSimulation(graph, iterations)`: missing result node returns the
all-zero result immediately; otherwise all iterations run, per-node
statistics are produced for every node with at least one accumulated sample,
and the final result re-exposes the result node's accumulated samples. -/
def runGraphSimulation (g : Graph) (ops : HostOps) (u : ℕ → ℚ)
    (fuel iterations : ℕ) : Option GraphSimOutput :=
  match g.nodes.find? Node.isResult with
  | none => some ⟨emptySimResult, []⟩
  | some resultNode =>
    match runIterations g ops u fuel resultNode.id iterations 0 (initSamples g) with
    | none => none
    | some (nodeSamples, _) =>
      let nodeResults := (nodeSamples.filter (fun p => 0 < p.2.length)).map
        (fun p =>
          let stats := calculateStats ops p.2
          (p.1, NodeSimulationResult.mk p.1 stats.samples stats.percentiles
            stats.mean stats.stdDev))
      let resultSamples := (keyLookup nodeSamples resultNode.id).getD []
      let finalResult := calculateStats ops resultSamples
      some ⟨{ finalResult with samples := resultSamples }, nodeResults⟩

/-! ## Theorems -/

/-- The rejection loop advances the draw counter by at most `2 * (fuel + 1)`
uniform draws (each attempt consumes two). -/
lemma sampleNormalGo_ctr_le (ops : HostOps) (u : ℕ → ℚ) (mean sd lo hi : ℚ) :
    ∀ (fuel ctr : ℕ),
      (sampleNormalGo ops u mean sd lo hi ctr fuel).2 ≤ ctr + 2 * (fuel + 1) := by
  intro fuel
  induction fuel with
  | zero =>
    intro ctr
    simp [sampleNormalGo, randomNormal]
  | succ f ih =>
    intro ctr
    rw [sampleNormalGo]
    split
    · exact le_trans (ih _) (by simp only [randomNormal]; omega)
    · simp only [randomNormal]
      omega

/-- C2.  For every assumption with `min ≤ max`, every uniform stream with
draws in `[0,1)` and every host interpretation, `sampleAssumption` returns a
value in `[min, max]`, for each of the three distribution kinds; moreover it
consumes at most 200 uniform draws (100 Box–Muller attempts). -/
theorem sampleAssumption_range (ops : HostOps) (u : ℕ → ℚ) (a : Assumption)
    (hu : ∀ n, 0 ≤ u n ∧ u n < 1) (hm : a.min ≤ a.max) (ctr : ℕ) :
    a.min ≤ (sampleAssumption ops u ctr a).1 ∧
      (sampleAssumption ops u ctr a).1 ≤ a.max ∧
      (sampleAssumption ops u ctr a).2 ≤ ctr + 200 := by
  obtain ⟨id, name, lo, hi, dist⟩ := a
  simp only [Assumption.min, Assumption.max] at hm
  cases dist with
  | uniform =>
    simp only [sampleAssumption, sampleUniform]
    obtain ⟨h0, h1⟩ := hu ctr
    refine ⟨?_, ?_, by omega⟩
    · nlinarith
    · nlinarith
  | normal =>
    simp only [sampleAssumption, sampleNormal]
    refine ⟨le_max_left _ _, max_le hm (min_le_left _ _), ?_⟩
    exact le_trans (sampleNormalGo_ctr_le ops u _ _ lo hi 99 ctr) (by omega)
  | lognormal =>
    simp only [sampleAssumption, sampleLognormal, randomNormal]
    exact ⟨le_max_left _ _, max_le hm (min_le_left _ _), by omega⟩

/-- Witness for C2 at the concrete assumption `[0,1]`, uniform kind, the
all-zero uniform stream. -/
theorem sampleAssumption_range_witness :
    (0:ℚ) ≤ (sampleAssumption trivialOps (fun _ => 0) 0 ⟨"x", "x", 0, 1, .uniform⟩).1 ∧
      (sampleAssumption trivialOps (fun _ => 0) 0 ⟨"x", "x", 0, 1, .uniform⟩).1 ≤ 1 ∧
      (sampleAssumption trivialOps (fun _ => 0) 0 ⟨"x", "x", 0, 1, .uniform⟩).2 ≤ 0 + 200 :=
  sampleAssumption_range trivialOps (fun _ => 0) ⟨"x", "x", 0, 1, .uniform⟩
    (fun _ => ⟨le_refl 0, by norm_num⟩) (by norm_num) 0

/-- C6.  `calculateStats` on the empty sample list returns the all-zero
summary (it never throws: it is a total function). -/
theorem calculateStats_empty (ops : HostOps) :
    calculateStats ops [] = emptySimResult ∧
      (calculateStats ops []).mean = num 0 ∧
      (calculateStats ops []).stdDev = num 0 ∧
      (calculateStats ops []).percentiles = ⟨num 0, num 0, num 0, num 0, num 0⟩ :=
  ⟨rfl, rfl, rfl, rfl⟩

/-- The nearest-rank percentile index of the specification:
`floor(p/100 * n)` clamped to `n - 1`. -/
def nearestRankIndex (p : ℚ) (n : ℕ) : ℕ :=
  (min ⌊p / 100 * n⌋ ((n : ℤ) - 1)).toNat

lemma jdiv_num_of_ne (a b : ℚ) (h : b ≠ 0) : jdiv (num a) (num b) = num (a / b) := by
  simp [jdiv, h]

lemma foldl_jadd_map_num (qs : List ℚ) (a : ℚ) :
    (qs.map num).foldl jadd (num a) = num (a + qs.sum) := by
  induction qs generalizing a with
  | nil => simp
  | cons q t ih =>
    have hq : jadd (num a) (num q) = num (a + q) := rfl
    simp only [List.map_cons, List.foldl_cons, hq, ih, List.sum_cons]
    exact congrArg num (by ring)

lemma foldl_var_map_num (qs : List ℚ) (μ a : ℚ) :
    ((qs.map num).foldl
        (fun s v => jadd s (jmul (jsub v (num μ)) (jsub v (num μ)))) (num a)) =
      num (a + (qs.map (fun q => (q - μ) * (q - μ))).sum) := by
  induction qs generalizing a with
  | nil => simp
  | cons q t ih =>
    have hq : jadd (num a) (jmul (jsub (num q) (num μ)) (jsub (num q) (num μ))) =
        num (a + (q - μ) * (q - μ)) := by
      simp only [jsub, jneg, jadd, jmul]
      exact congrArg num (by ring)
    simp only [List.map_cons, List.foldl_cons, hq, ih, List.sum_cons]
    exact congrArg num (by ring)

lemma jleB_trans (a b c : JNum) (h1 : jleB a b = true) (h2 : jleB b c = true) :
    jleB a c = true := by
  cases a <;> cases b <;> cases c <;>
    simp_all [jleB] <;> exact le_trans h1 h2

lemma jleB_total (a b : JNum) : (jleB a b || jleB b a) = true := by
  cases a <;> cases b <;> simp [jleB] <;> exact le_total _ _

lemma jleB_antisymm (a b : JNum) (h1 : jleB a b = true) (h2 : jleB b a = true) :
    a = b := by
  cases a <;> cases b <;> simp_all [jleB] <;> exact le_antisymm h1 h2

lemma ratLeB_trans (a b c : ℚ) (h1 : decide (a ≤ b) = true)
    (h2 : decide (b ≤ c) = true) : decide (a ≤ c) = true :=
  decide_eq_true (le_trans (of_decide_eq_true h1) (of_decide_eq_true h2))

lemma ratLeB_total (a b : ℚ) : (decide (a ≤ b) || decide (b ≤ a)) = true := by
  rcases le_total a b with h | h <;> simp [h]

lemma sorted_mergeSort_rat (qs : List ℚ) :
    (qs.mergeSort (fun a b => decide (a ≤ b))).Sorted (· ≤ ·) :=
  List.Pairwise.imp (fun h => of_decide_eq_true h)
    (List.sorted_mergeSort ratLeB_trans ratLeB_total qs)

/-- Sorting the image of a rational list under `num` with the JS comparator
agrees with mapping the rational ascending sort. -/
lemma mergeSort_map_num (qs : List ℚ) :
    (qs.map num).mergeSort jleB =
      (qs.mergeSort (fun a b => decide (a ≤ b))).map num := by
  haveI : IsAntisymm JNum (fun x y => jleB x y = true) := ⟨jleB_antisymm⟩
  apply List.eq_of_perm_of_sorted (r := fun x y => jleB x y = true)
  · exact ((qs.map num).mergeSort_perm jleB).trans
      ((qs.mergeSort_perm (fun a b => decide (a ≤ b))).map num).symm
  · exact List.sorted_mergeSort jleB_trans jleB_total (qs.map num)
  · exact List.Pairwise.map num (fun a b h => by simpa [jleB] using h)
      (sorted_mergeSort_rat qs)

lemma getD_map_num (l : List ℚ) (i : ℕ) :
    (l.map num).getD i (num 0) = num (l.getD i 0) := by
  simp only [List.getD, List.getElem?_map]
  cases l[i]? <;> simp

lemma getPercentileOf_map_num (l : List ℚ) (p : ℚ) :
    getPercentileOf (l.map num) p =
      num (l.getD (nearestRankIndex p l.length) 0) := by
  simp only [getPercentileOf, nearestRankIndex, List.length_map, getD_map_num,
    orZero]
  split <;> simp_all

/-- `calculateStats` on a non-empty list, written out field by field. -/
lemma calculateStats_eq (ops : HostOps) (samples : List JNum)
    (h : samples.length ≠ 0) :
    calculateStats ops samples =
      { samples := samples
        percentiles :=
          ⟨getPercentileOf (samples.mergeSort jleB) 5,
            getPercentileOf (samples.mergeSort jleB) 25,
            getPercentileOf (samples.mergeSort jleB) 50,
            getPercentileOf (samples.mergeSort jleB) 75,
            getPercentileOf (samples.mergeSort jleB) 95⟩
        mean := jdiv (samples.foldl jadd (num 0)) (num samples.length)
        stdDev := ops.sqrt
          (jdiv
            (samples.foldl
              (fun s v =>
                jadd s
                  (jmul
                    (jsub v (jdiv (samples.foldl jadd (num 0)) (num samples.length)))
                    (jsub v (jdiv (samples.foldl jadd (num 0)) (num samples.length)))))
              (num 0))
            (num samples.length)) } := by
  simp [calculateStats, h]

/-- C5.  On every non-empty list of finite samples `calculateStats` returns
the arithmetic mean, `Math.sqrt` of the population variance (division by
`n`, not `n - 1`), and the five nearest-rank percentiles (no interpolation)
of an ascending-sorted permutation of the input; on `[1,…,10]` the mean is
`5.5` and the median is `6`. -/
theorem calculateStats_nonempty_spec :
    (∀ (ops : HostOps) (qs : List ℚ), qs ≠ [] →
      (calculateStats ops (qs.map num)).mean = num (qs.sum / qs.length) ∧
      (calculateStats ops (qs.map num)).stdDev =
        ops.sqrt (num
          ((qs.map (fun q =>
              (q - qs.sum / qs.length) * (q - qs.sum / qs.length))).sum /
            qs.length)) ∧
      ∃ sorted : List ℚ, sorted.Sorted (· ≤ ·) ∧ sorted.Perm qs ∧
        (calculateStats ops (qs.map num)).percentiles =
          ⟨num (sorted.getD (nearestRankIndex 5 qs.length) 0),
            num (sorted.getD (nearestRankIndex 25 qs.length) 0),
            num (sorted.getD (nearestRankIndex 50 qs.length) 0),
            num (sorted.getD (nearestRankIndex 75 qs.length) 0),
            num (sorted.getD (nearestRankIndex 95 qs.length) 0)⟩) ∧
    (∀ ops : HostOps,
      (calculateStats ops ([1,2,3,4,5,6,7,8,9,10].map num)).mean = num (11/2) ∧
      (calculateStats ops ([1,2,3,4,5,6,7,8,9,10].map num)).percentiles.p50 = num 6) := by
  have main : ∀ (ops : HostOps) (qs : List ℚ), qs ≠ [] →
      (calculateStats ops (qs.map num)).mean = num (qs.sum / qs.length) ∧
      (calculateStats ops (qs.map num)).stdDev =
        ops.sqrt (num
          ((qs.map (fun q =>
              (q - qs.sum / qs.length) * (q - qs.sum / qs.length))).sum /
            qs.length)) ∧
      ∃ sorted : List ℚ, sorted.Sorted (· ≤ ·) ∧ sorted.Perm qs ∧
        (calculateStats ops (qs.map num)).percentiles =
          ⟨num (sorted.getD (nearestRankIndex 5 qs.length) 0),
            num (sorted.getD (nearestRankIndex 25 qs.length) 0),
            num (sorted.getD (nearestRankIndex 50 qs.length) 0),
            num (sorted.getD (nearestRankIndex 75 qs.length) 0),
            num (sorted.getD (nearestRankIndex 95 qs.length) 0)⟩ := by
    intro ops qs hne
    have hlen0 : (qs.map num).length ≠ 0 := by
      simpa [List.length_eq_zero] using hne
    have hlenQ : ((qs.length : ℚ)) ≠ 0 := by
      simpa using fun h => hne (List.length_eq_zero.mp h)
    have hmean : (qs.map num).foldl jadd (num 0) = num qs.sum := by
      simpa using foldl_jadd_map_num qs 0
    rw [calculateStats_eq ops (qs.map num) hlen0]
    have hmeanv :
        jdiv ((qs.map num).foldl jadd (num 0)) (num (qs.map num).length) =
          num (qs.sum / qs.length) := by
      rw [hmean, List.length_map, jdiv_num_of_ne _ _ hlenQ]
    refine ⟨hmeanv, ?_, ?_⟩
    · rw [hmeanv]
      have hvar := foldl_var_map_num qs (qs.sum / qs.length) 0
      rw [hvar, List.length_map, jdiv_num_of_ne _ _ hlenQ]
      exact congrArg ops.sqrt (congrArg num (by rw [zero_add]))
    · refine ⟨qs.mergeSort (fun a b => decide (a ≤ b)), sorted_mergeSort_rat qs,
        qs.mergeSort_perm _, ?_⟩
      simp only [mergeSort_map_num, getPercentileOf_map_num, List.length_mergeSort]
  refine ⟨main, fun ops => ?_⟩
  obtain ⟨h1, _, sorted, hs, hp, hfields⟩ :=
    main ops [1,2,3,4,5,6,7,8,9,10] (by decide)
  have hsorted : sorted = [1,2,3,4,5,6,7,8,9,10] := by
    haveI : IsAntisymm ℚ (· ≤ ·) := ⟨fun a b => le_antisymm⟩
    exact List.eq_of_perm_of_sorted hp hs (by decide)
  constructor
  · rw [h1]
    exact congrArg num (by norm_num)
  · rw [hfields, hsorted]
    have hidx : nearestRankIndex 50 ([1,2,3,4,5,6,7,8,9,10] : List ℚ).length = 5 := by
      norm_num [nearestRankIndex]
      rfl
    show num (([1,2,3,4,5,6,7,8,9,10] : List ℚ).getD
      (nearestRankIndex 50 ([1,2,3,4,5,6,7,8,9,10] : List ℚ).length) 0) = num 6
    rw [hidx]
    norm_num

/-- Witness for C5: the non-emptiness hypothesis discharged at `[1, 2]`. -/
theorem calculateStats_nonempty_spec_witness :
    (calculateStats trivialOps ([(1:ℚ), 2].map num)).mean =
      num (([(1:ℚ), 2].sum) / ([(1:ℚ), 2].length)) :=
  (calculateStats_nonempty_spec.1 trivialOps [1, 2] (by decide)).1

/-! ### Accumulator lemmas shared by the run-level claims -/

lemma pushSample_cons (k : String) (l : List JNum)
    (rest : List (String × List JNum)) (id : String) (v : JNum) :
    pushSample ((k, l) :: rest) id v =
      (if k = id then (k, l ++ [v]) else (k, l)) :: pushSample rest id v := by
  by_cases h : k = id <;> simp [pushSample, h]

lemma keyLookup_pushSample_same (acc : List (String × List JNum)) (id : String)
    (v : JNum) :
    keyLookup (pushSample acc id v) id =
      (keyLookup acc id).map (fun l => l ++ [v]) := by
  induction acc with
  | nil => rfl
  | cons p rest ih =>
    obtain ⟨k, l⟩ := p
    rw [pushSample_cons]
    by_cases h : k = id
    · rw [if_pos h]
      simp only [keyLookup]
      rw [if_pos h, if_pos h]
      rfl
    · rw [if_neg h]
      simp only [keyLookup]
      rw [if_neg h, if_neg h]
      exact ih

lemma keyLookup_pushSample_ne (acc : List (String × List JNum)) (id id' : String)
    (v : JNum) (h : id ≠ id') :
    keyLookup (pushSample acc id v) id' = keyLookup acc id' := by
  induction acc with
  | nil => rfl
  | cons p rest ih =>
    obtain ⟨k, l⟩ := p
    rw [pushSample_cons]
    by_cases hk : k = id
    · have hk' : ¬ k = id' := by rw [hk]; exact h
      rw [if_pos hk]
      simp only [keyLookup]
      rw [if_neg hk', if_neg hk']
      exact ih
    · rw [if_neg hk]
      by_cases hq : k = id'
      · simp only [keyLookup]
        rw [if_pos hq, if_pos hq]
      · simp only [keyLookup]
        rw [if_neg hq, if_neg hq]
        exact ih

/-! ### The C1 diamond graph: one assumption feeding both operands of a
subtraction -/

/-- The single-draw test graph of the spec: `x − x` through two edges from
the same assumption. -/
def diamondGraph (lo hi : ℚ) (dist : Distribution) : Graph where
  nodes := [⟨"x", .assumption "x" lo hi dist⟩,
            ⟨"op", .operation .subtract⟩,
            ⟨"r", .result⟩]
  edges := [⟨"x", "op", some "a"⟩, ⟨"x", "op", some "b"⟩, ⟨"op", "r", none⟩]

lemma diamond_iter (lo hi : ℚ) (dist : Distribution) (ops : HostOps)
    (u : ℕ → ℚ) (ctr : ℕ) :
    computeNodeValue (diamondGraph lo hi dist) ops u 4 "r" ⟨[], ctr⟩ =
      some (num 0,
        ⟨[("x", num (sampleAssumption ops u ctr ⟨"x", "x", lo, hi, dist⟩).1),
          ("op", num 0), ("r", num 0)],
          (sampleAssumption ops u ctr ⟨"x", "x", lo, hi, dist⟩).2⟩) := by
  have hsub : ∀ q : ℚ, jsub (num q) (num q) = num 0 := by
    intro q; simp [jsub, jneg, jadd]
  simp [computeNodeValue, diamondGraph, incomingOf, resolveOpInputs, keyLookup,
    cacheSet, List.find?, Node.isResult, normalizeHandle, hsub]

lemma diamond_runIterations (lo hi : ℚ) (dist : Distribution) (ops : HostOps)
    (u : ℕ → ℚ) :
    ∀ (iters ctr : ℕ) (acc : List (String × List JNum)) (l : List JNum),
      keyLookup acc "r" = some l →
      ∃ acc' ctr',
        runIterations (diamondGraph lo hi dist) ops u 4 "r" iters ctr acc =
          some (acc', ctr') ∧
        keyLookup acc' "r" = some (l ++ List.replicate iters (num 0)) := by
  intro iters
  induction iters with
  | zero =>
    intro ctr acc l h
    exact ⟨acc, ctr, rfl, by simpa using h⟩
  | succ n ih =>
    intro ctr acc l h
    have hstep := diamond_iter lo hi dist ops u ctr
    rw [runIterations, hstep]
    have hacc :
        keyLookup
          (accumulate
            [("x", num (sampleAssumption ops u ctr ⟨"x", "x", lo, hi, dist⟩).1),
              ("op", num 0), ("r", num 0)] acc) "r" = some (l ++ [num 0]) := by
      simp [accumulate, isFiniteJS, keyLookup_pushSample_same,
        keyLookup_pushSample_ne, h]
    obtain ⟨acc', ctr'', h1, h2⟩ := ih _ _ _ hacc
    refine ⟨acc', ctr'', h1, ?_⟩
    rw [h2]
    simp [List.replicate_succ]

/-- C1.  (i) Once a node's value is stored in the iteration cache, any later
request for it in the same iteration returns the cached value with the state
unchanged — each node is computed at most once per iteration.  (ii) In the
graph computing `assumption − assumption` through two edges from one
assumption node, every iteration's final sample is exactly 0, for every
distribution, stream and host interpretation. -/
theorem singleDrawPerIteration :
    (∀ (g : Graph) (ops : HostOps) (u : ℕ → ℚ) (fuel : ℕ) (id : String)
        (st : EvalState) (v : JNum),
      keyLookup st.cache id = some v →
      computeNodeValue g ops u (fuel + 1) id st = some (v, st)) ∧
    (∀ (lo hi : ℚ) (dist : Distribution) (ops : HostOps) (u : ℕ → ℚ)
        (iters : ℕ),
      (runGraphSimulation (diamondGraph lo hi dist) ops u 4 iters).map
        (fun out => out.finalResult.samples) =
          some (List.replicate iters (num 0))) := by
  constructor
  · intro g ops u fuel id st v h
    rw [computeNodeValue, h]
  · intro lo hi dist ops u iters
    have hinit : keyLookup (initSamples (diamondGraph lo hi dist)) "r" = some [] := by
      simp [initSamples, diamondGraph, keyLookup]
    obtain ⟨acc', ctr', h1, h2⟩ :=
      diamond_runIterations lo hi dist ops u iters 0 _ [] hinit
    simp only [runGraphSimulation, diamondGraph, List.find?, Node.isResult]
    simp only [diamondGraph] at h1
    rw [h1]
    simp [h2]

/-- Witness for C1: a cache hit at a concrete cache returns the stored
value. -/
theorem singleDrawPerIteration_witness :
    computeNodeValue (diamondGraph 0 1 .uniform) trivialOps (fun _ => 0) 1 "x"
        ⟨[("x", num 3)], 0⟩ =
      some (num 3, ⟨[("x", num 3)], 0⟩) :=
  singleDrawPerIteration.1 (diamondGraph 0 1 .uniform) trivialOps (fun _ => 0) 0
    "x" ⟨[("x", num 3)], 0⟩ (num 3) (by simp [keyLookup])

/-! ### The C8 end-to-end graph: `Assumption(10,10,uniform) × Constant(2) → Result` -/

/-- The deterministic end-to-end scenario graph of the spec. -/
def constantDoubleGraph : Graph where
  nodes := [⟨"x", .assumption "x" 10 10 .uniform⟩,
            ⟨"c", .constant 2⟩,
            ⟨"op", .operation .multiply⟩,
            ⟨"r", .result⟩]
  edges := [⟨"x", "op", some "a"⟩, ⟨"c", "op", some "b"⟩, ⟨"op", "r", none⟩]

lemma constantDouble_iter (ops : HostOps) (u : ℕ → ℚ) (ctr : ℕ) :
    computeNodeValue constantDoubleGraph ops u 4 "r" ⟨[], ctr⟩ =
      some (num 20,
        ⟨[("x", num 10), ("c", num 2), ("op", num 20), ("r", num 20)], ctr + 1⟩) := by
  have hx : sampleAssumption ops u ctr ⟨"x", "x", 10, 10, .uniform⟩ = (10, ctr + 1) := by
    simp [sampleAssumption, sampleUniform]
  have hmul : jmul (num 10) (num 2) = num 20 := by
    simp only [jmul]
    norm_num
  simp [computeNodeValue, constantDoubleGraph, incomingOf, resolveOpInputs,
    keyLookup, cacheSet, List.find?, Node.isResult, normalizeHandle, hx, hmul]

lemma constantDouble_runIterations (ops : HostOps) (u : ℕ → ℚ) :
    ∀ (iters ctr : ℕ) (acc : List (String × List JNum)) (l : List JNum),
      keyLookup acc "r" = some l →
      ∃ acc' ctr',
        runIterations constantDoubleGraph ops u 4 "r" iters ctr acc =
          some (acc', ctr') ∧
        keyLookup acc' "r" = some (l ++ List.replicate iters (num 20)) := by
  intro iters
  induction iters with
  | zero =>
    intro ctr acc l h
    exact ⟨acc, ctr, rfl, by simpa using h⟩
  | succ n ih =>
    intro ctr acc l h
    rw [runIterations, constantDouble_iter ops u ctr]
    have hacc :
        keyLookup
          (accumulate [("x", num 10), ("c", num 2), ("op", num 20), ("r", num 20)]
            acc) "r" = some (l ++ [num 20]) := by
      simp [accumulate, isFiniteJS, keyLookup_pushSample_same,
        keyLookup_pushSample_ne, h]
    obtain ⟨acc', ctr'', h1, h2⟩ := ih _ _ _ hacc
    refine ⟨acc', ctr'', h1, ?_⟩
    rw [h2]
    simp [List.replicate_succ]

lemma getPercentileOf_replicate_num (n : ℕ) (hn : 0 < n) (a : ℚ) (p : ℚ) :
    getPercentileOf (List.replicate n (num a)) p = num a := by
  have hidx : ((min ⌊p / 100 * (n : ℚ)⌋ ((n : ℤ) - 1)).toNat) < n := by omega
  have h1 : (List.replicate n (num a))[((min ⌊p / 100 * (n : ℚ)⌋ ((n : ℤ) - 1)).toNat)]? =
      some (num a) := by
    rw [List.getElem?_replicate]
    exact if_pos hidx
  simp [getPercentileOf, List.getD, orZero, h1]

/-- C8.  On the graph `Assumption(min=10, max=10, uniform) → multiply with
Constant(2) → Result`, every iteration's sample is exactly 20, hence over
any positive number of iterations the final mean is 20, the standard
deviation is 0, and all five percentiles are 20.  (`Math.sqrt 0 = 0` is the
only fact about the abstracted host square root that is needed.) -/
theorem endToEndConstantDouble (ops : HostOps) (u : ℕ → ℚ) (iters : ℕ)
    (hpos : 0 < iters) (hsqrt : ops.sqrt (num 0) = num 0) :
    ∃ out, runGraphSimulation constantDoubleGraph ops u 4 iters = some out ∧
      out.finalResult.samples = List.replicate iters (num 20) ∧
      out.finalResult.mean = num 20 ∧
      out.finalResult.stdDev = num 0 ∧
      out.finalResult.percentiles = ⟨num 20, num 20, num 20, num 20, num 20⟩ := by
  have hinit : keyLookup (initSamples constantDoubleGraph) "r" = some [] := by
    simp [initSamples, constantDoubleGraph, keyLookup]
  obtain ⟨acc', ctr', h1, h2⟩ :=
    constantDouble_runIterations ops u iters 0 _ [] hinit
  have hlen : (List.replicate iters (num 20)).length ≠ 0 := by
    simpa using hpos.ne'
  have hlenQ : ((iters : ℚ)) ≠ 0 := by
    exact_mod_cast hpos.ne'
  have hms : (List.replicate iters (num 20)).mergeSort jleB =
      List.replicate iters (num 20) :=
    List.perm_replicate.mp (List.mergeSort_perm _ _)
  have hmap : (List.replicate iters ((20 : ℚ))).map num =
      List.replicate iters (num 20) := by
    simp
  have hsum : (List.replicate iters ((20 : ℚ))).sum = iters * 20 := by
    simp [List.sum_replicate, nsmul_eq_mul]
  have hfold : (List.replicate iters (num 20)).foldl jadd (num 0) =
      num (iters * 20) := by
    rw [← hmap, foldl_jadd_map_num, hsum, zero_add]
  have hmeanv :
      jdiv ((List.replicate iters (num 20)).foldl jadd (num 0))
        (num (List.replicate iters (num 20)).length) = num 20 := by
    rw [hfold, List.length_replicate, jdiv_num_of_ne _ _ hlenQ,
      mul_div_assoc]
    exact congrArg num (by field_simp)
  have hstats := calculateStats_eq ops (List.replicate iters (num 20)) hlen
  have hvar :
      ((List.replicate iters (num 20)).foldl
        (fun s v =>
          jadd s
            (jmul
              (jsub v (jdiv ((List.replicate iters (num 20)).foldl jadd (num 0))
                (num (List.replicate iters (num 20)).length)))
              (jsub v (jdiv ((List.replicate iters (num 20)).foldl jadd (num 0))
                (num (List.replicate iters (num 20)).length)))))
        (num 0)) = num 0 := by
    rw [hmeanv, ← hmap, foldl_var_map_num]
    have : (List.replicate iters ((20 : ℚ))).map
        (fun q => (q - 20) * (q - 20)) = List.replicate iters 0 := by
      simp [List.map_replicate]
    rw [this]
    simp [List.sum_replicate]
  simp only [constantDoubleGraph] at h1
  simp only [runGraphSimulation, constantDoubleGraph, List.find?, Node.isResult,
    h1, h2, Option.getD_some, List.nil_append]
  refine ⟨_, rfl, rfl, ?_, ?_, ?_⟩
  · show (calculateStats ops (List.replicate iters (num 20))).mean = num 20
    rw [hstats]
    exact hmeanv
  · show (calculateStats ops (List.replicate iters (num 20))).stdDev = num 0
    rw [hstats]
    show ops.sqrt _ = num 0
    rw [hvar, List.length_replicate, jdiv_num_of_ne _ _ hlenQ]
    simpa using hsqrt
  · show (calculateStats ops (List.replicate iters (num 20))).percentiles = _
    rw [hstats]
    show SimPercentiles.mk _ _ _ _ _ = _
    rw [hms]
    simp [getPercentileOf_replicate_num iters hpos 20]

/-- Witness for C8 at two iterations with the identity host square root. -/
theorem endToEndConstantDouble_witness :
    ∃ out, runGraphSimulation constantDoubleGraph trivialOps (fun _ => 0) 4 2 = some out ∧
      out.finalResult.samples = List.replicate 2 (num 20) ∧
      out.finalResult.mean = num 20 ∧
      out.finalResult.stdDev = num 0 ∧
      out.finalResult.percentiles = ⟨num 20, num 20, num 20, num 20, num 20⟩ :=
  endToEndConstantDouble trivialOps (fun _ => 0) 2 (by norm_num) rfl

/-! ### C3: division by zero, graph path vs. legacy path -/

/-- A concrete graph dividing 5 by 0. -/
def divGraph : Graph where
  nodes := [⟨"a", .constant 5⟩, ⟨"z", .constant 0⟩,
            ⟨"d", .operation .divide⟩, ⟨"r", .result⟩]
  edges := [⟨"a", "d", some "a"⟩, ⟨"z", "d", some "b"⟩, ⟨"d", "r", none⟩]

/-- C3.  (i) In the graph operator path, a `divide` operation whose resolved
right operand is `0` evaluates to `0` (the `inputB !== 0` guard), whatever
the left operand is.  (ii) In the legacy path, when the host evaluation of
the substituted and sanitized formula returns a non-finite number
(`Infinity`/`NaN`, the standard float semantics of dividing by zero),
`evaluateFormula` reports the `NaN` failure sentinel — not `0`. -/
theorem divideByZeroPolicy :
    (∀ (g : Graph) (ops : HostOps) (u : ℕ → ℚ) (fuel : ℕ) (nodeId : String)
        (st st' : EvalState) (nodeId' : String) (inputA : JNum),
      g.nodes.find? (fun n => n.id = nodeId) = some ⟨nodeId', .operation .divide⟩ →
      keyLookup st.cache nodeId = none →
      resolveOpInputs (fun id s => computeNodeValue g ops u fuel id s)
          (incomingOf g nodeId) true (num 0) (num 0) st =
        some (inputA, num 0, st') →
      computeNodeValue g ops u (fuel + 1) nodeId st =
        some (num 0, { st' with cache := cacheSet st'.cache nodeId (num 0) })) ∧
    (∀ (ops : HostOps) (formula : String) (bindings : List (String × ℚ)) (v : JNum),
      ops.evalArith (sanitizeFormula (substituteNames ops formula bindings)) =
        some v →
      isFiniteJS v = false →
      evaluateFormula ops formula bindings = JNum.nan ∧ JNum.nan ≠ num 0) := by
  constructor
  · intro g ops u fuel nodeId st st' nodeId' inputA hfind hcache hresolve
    rw [computeNodeValue, hcache, hfind]
    simp only [hresolve, jeqJS]
    norm_num
  · intro ops formula bindings v hhost hfin
    refine ⟨?_, by simp⟩
    rw [evaluateFormula]
    simp only [hhost, hfin]
    simp

/-- Witness for C3: dividing the constant 5 by the constant 0 in the graph
yields 0, and a legacy host evaluation returning `Infinity` yields the `NaN`
sentinel. -/
theorem divideByZeroPolicy_witness :
    (computeNodeValue divGraph trivialOps (fun _ => 0) 3 "d" ⟨[], 0⟩ =
      some (num 0, ⟨[("a", num 5), ("z", num 0), ("d", num 0)], 0⟩)) ∧
    (evaluateFormula { trivialOps with evalArith := fun _ => some .inf } "1/0" [] =
      JNum.nan ∧ JNum.nan ≠ num 0) := by
  constructor
  · have h := divideByZeroPolicy.1 divGraph trivialOps (fun _ => 0) 2 "d"
      ⟨[], 0⟩ ⟨[("a", num 5), ("z", num 0)], 0⟩ "d" (num 5) rfl rfl
      (by simp [resolveOpInputs, incomingOf, divGraph, computeNodeValue,
        keyLookup, cacheSet, normalizeHandle])
    simpa [cacheSet] using h
  · exact divideByZeroPolicy.2 { trivialOps with evalArith := fun _ => some .inf }
      "1/0" [] .inf rfl rfl

/-! ### C4: min/max function nodes with a single wired input -/

/-- A concrete graph: `Constant(5)` wired (untagged) into a `min` function
node, into the result. -/
def minFnGraph : Graph where
  nodes := [⟨"c", .constant 5⟩, ⟨"f", .function .min none⟩, ⟨"r", .result⟩]
  edges := [⟨"c", "f", none⟩, ⟨"f", "r", none⟩]

/-- Counterexample to C4 as stated: a `min` function node with exactly one
wired input carrying the value 5 evaluates to `min(5, 0) = 0`, not to the
input value 5 — the unwired second input defaults to 0 at the call site, so
`min`/`max` do *not* degenerate to the identity in the graph path. -/
theorem minMaxSingleInput_counterexample :
    (runGraphSimulation minFnGraph trivialOps (fun _ => 0) 4 1).map
        (fun o => o.finalResult.samples) = some [num 0] ∧
      (num 0 : JNum) ≠ num 5 := by
  constructor
  · have hmin : jmin (num 5) (num 0) = num 0 := by
      simp only [jmin]
      norm_num
    simp [runGraphSimulation, minFnGraph, computeNodeValue, incomingOf,
      resolveFnInputs, applyFunction, keyLookup, cacheSet, initSamples,
      accumulate, pushSample, runIterations, Node.isResult, List.find?,
      normalizeHandle, isFiniteJS, hmin]
  · simp

/-- C4 amended.  (i) `applyFunction` itself, called *without* a second
argument, does degenerate to the identity for `min`/`max` (the
`inputB ?? input` fallback).  (ii) But the graph evaluator always passes a
second argument defaulting to 0: a `min`/`max` function node with exactly
one wired input of value `v` evaluates to `min(v, 0)` (resp. `max(v, 0)`),
not to `v`. -/
theorem minMaxSingleInput_amended :
    (∀ (ops : HostOps) (v : JNum) (param : Option (ℚ ⊕ String)),
      applyFunction ops .min v none param = v ∧
      applyFunction ops .max v none param = v) ∧
    (∀ (g : Graph) (ops : HostOps) (u : ℕ → ℚ) (fuel : ℕ) (nodeId : String)
        (st : EvalState) (nodeId' : String) (func : FunctionType)
        (param : Option (ℚ ⊕ String)) (e : IncEdge) (v : JNum) (st' : EvalState),
      g.nodes.find? (fun n => n.id = nodeId) = some ⟨nodeId', .function func param⟩ →
      (func = .min ∨ func = .max) →
      keyLookup st.cache nodeId = none →
      incomingOf g nodeId = [e] →
      (e.handle = some "a" ∨ e.handle = some "input" ∨ e.handle = none) →
      computeNodeValue g ops u fuel e.sourceId st = some (v, st') →
      computeNodeValue g ops u (fuel + 1) nodeId st =
        some ((if func = .min then jmin v (num 0) else jmax v (num 0)),
          { st' with
            cache :=
              cacheSet st'.cache nodeId
                (if func = .min then jmin v (num 0) else jmax v (num 0)) })) := by
  constructor
  · intro ops v param
    constructor
    · show jmin v (Option.getD none v) = v
      cases v <;> simp [jmin]
    · show jmax v (Option.getD none v) = v
      cases v <;> simp [jmax]
  · intro g ops u fuel nodeId st nodeId' func param e v st' hfind hfunc hcache
      hinc hhandle hsource
    rw [computeNodeValue, hcache, hfind]
    simp only [hinc, resolveFnInputs, hsource]
    have hcond : (e.handle = some "a" ∨ e.handle = some "input" ∨
        (e.handle = none ∧ True)) := by
      rcases hhandle with h | h | h
      · exact Or.inl h
      · exact Or.inr (Or.inl h)
      · exact Or.inr (Or.inr ⟨h, trivial⟩)
    rw [if_pos hcond]
    simp only [resolveFnInputs]
    rcases hfunc with h | h
    · subst h
      simp [applyFunction]
    · subst h
      simp [applyFunction]

/-- Witness for the amended C4: the `min` node over the single wired
constant 5 computes `min(5, 0)`. -/
theorem minMaxSingleInput_amended_witness :
    computeNodeValue minFnGraph trivialOps (fun _ => 0) 2 "f" ⟨[], 0⟩ =
      some (jmin (num 5) (num 0),
        ⟨[("c", num 5), ("f", jmin (num 5) (num 0))], 0⟩) := by
  have h := minMaxSingleInput_amended.2 minFnGraph trivialOps (fun _ => 0) 1 "f"
    ⟨[], 0⟩ "f" .min none ⟨"c", none⟩ (num 5) ⟨[("c", num 5)], 0⟩ rfl (Or.inl rfl)
    rfl (by simp [incomingOf, minFnGraph, normalizeHandle]) (Or.inr (Or.inr rfl))
    (by simp [computeNodeValue, minFnGraph, keyLookup, cacheSet, List.find?])
  simpa [cacheSet] using h

/-! ### C7: per-node exclusion of non-finite samples -/

/-- Every sample stored in every accumulator entry is finite. -/
def accFinite (acc : List (String × List JNum)) : Prop :=
  ∀ p ∈ acc, ∀ v ∈ p.2, isFiniteJS v = true

lemma accumulate_keyLookup (cache : List (String × JNum)) :
    ∀ (acc : List (String × List JNum)) (id : String) (l : List JNum),
      keyLookup acc id = some l →
      keyLookup (accumulate cache acc) id =
        some (l ++ (cache.filter
          (fun p => decide (p.1 = id) && isFiniteJS p.2)).map Prod.snd) := by
  induction cache with
  | nil =>
    intro acc id l h
    simpa [accumulate] using h
  | cons p rest ih =>
    intro acc id l h
    obtain ⟨k, v⟩ := p
    show keyLookup (List.foldl _ (if isFiniteJS v then pushSample acc k v else acc) rest) id = _
    by_cases hv : isFiniteJS v = true
    · rw [if_pos hv]
      by_cases hk : k = id
      · subst hk
        have h' : keyLookup (pushSample acc k v) k = some (l ++ [v]) := by
          rw [keyLookup_pushSample_same, h]
          rfl
        have := ih (pushSample acc k v) k (l ++ [v]) h'
        rw [show accumulate rest (pushSample acc k v) =
          List.foldl (fun a p => if isFiniteJS p.2 then pushSample a p.1 p.2 else a)
            (pushSample acc k v) rest from rfl] at this
        rw [this]
        simp [hv, List.filter_cons]
      · have h' : keyLookup (pushSample acc k v) id = some l := by
          rw [keyLookup_pushSample_ne _ _ _ _ hk, h]
        have := ih (pushSample acc k v) id l h'
        rw [show accumulate rest (pushSample acc k v) =
          List.foldl (fun a p => if isFiniteJS p.2 then pushSample a p.1 p.2 else a)
            (pushSample acc k v) rest from rfl] at this
        rw [this]
        simp [List.filter_cons, hk]
    · rw [if_neg hv]
      have := ih acc id l h
      rw [show accumulate rest acc =
        List.foldl (fun a p => if isFiniteJS p.2 then pushSample a p.1 p.2 else a)
          acc rest from rfl] at this
      rw [this]
      have hv' : isFiniteJS v = false := by
        cases hvv : isFiniteJS v
        · rfl
        · exact absurd hvv hv
      simp [List.filter_cons, hv']

lemma pushSample_accFinite (acc : List (String × List JNum)) (id : String)
    (v : JNum) (hv : isFiniteJS v = true) (h : accFinite acc) :
    accFinite (pushSample acc id v) := by
  intro p hp w hw
  obtain ⟨q, hq, rfl⟩ := List.mem_map.mp hp
  by_cases hqid : q.1 = id
  · rw [if_pos hqid] at hw
    rcases List.mem_append.mp hw with h1 | h1
    · exact h q hq w h1
    · rw [List.mem_singleton.mp h1]
      exact hv
  · rw [if_neg hqid] at hw
    exact h q hq w hw

lemma accumulate_accFinite (cache : List (String × JNum)) :
    ∀ (acc : List (String × List JNum)), accFinite acc →
      accFinite (accumulate cache acc) := by
  induction cache with
  | nil => intro acc h; exact h
  | cons p rest ih =>
    intro acc h
    show accFinite (List.foldl _ (if isFiniteJS p.2 then pushSample acc p.1 p.2 else acc) rest)
    by_cases hv : isFiniteJS p.2 = true
    · rw [if_pos hv]
      exact ih _ (pushSample_accFinite acc p.1 p.2 hv h)
    · rw [if_neg hv]
      exact ih _ h

lemma initSamples_accFinite (g : Graph) : accFinite (initSamples g) := by
  show accFinite (List.foldl _ [] g.nodes)
  have : ∀ (nodes : List Node) (acc : List (String × List JNum)), accFinite acc →
      accFinite (nodes.foldl
        (fun acc n => if (keyLookup acc n.id).isSome then acc else acc ++ [(n.id, [])])
        acc) := by
    intro nodes
    induction nodes with
    | nil => intro acc h; exact h
    | cons n rest ih =>
      intro acc h
      simp only [List.foldl_cons]
      by_cases hs : (keyLookup acc n.id).isSome
      · rw [if_pos hs]; exact ih acc h
      · rw [if_neg hs]
        refine ih _ ?_
        intro p hp w hw
        rcases List.mem_append.mp hp with h1 | h1
        · exact h p h1 w hw
        · rw [List.mem_singleton.mp h1] at hw
          simp at hw
  exact this g.nodes [] (by intro p hp; simp at hp)

lemma runIterations_accFinite (g : Graph) (ops : HostOps) (u : ℕ → ℚ)
    (fuel : ℕ) (resId : String) :
    ∀ (iters ctr : ℕ) (acc : List (String × List JNum))
      (out : List (String × List JNum) × ℕ),
      accFinite acc →
      runIterations g ops u fuel resId iters ctr acc = some out →
      accFinite out.1 := by
  intro iters
  induction iters with
  | zero =>
    intro ctr acc out h hrun
    cases hrun
    exact h
  | succ n ih =>
    intro ctr acc out h hrun
    rw [runIterations] at hrun
    cases hc : computeNodeValue g ops u fuel resId ⟨[], ctr⟩ with
    | none => rw [hc] at hrun; exact absurd hrun (by simp)
    | some r =>
      obtain ⟨val, st⟩ := r
      rw [hc] at hrun
      exact ih st.ctr (accumulate st.cache acc) out
        (accumulate_accFinite st.cache acc h) hrun

lemma keyLookup_mem {α : Type} (acc : List (String × α)) (id : String) (l : α) :
    keyLookup acc id = some l → (id, l) ∈ acc := by
  induction acc with
  | nil => intro h; cases h
  | cons p rest ih =>
    obtain ⟨k, v⟩ := p
    intro h
    simp only [keyLookup] at h
    by_cases hk : k = id
    · rw [if_pos hk] at h
      cases h
      subst hk
      exact List.mem_cons_self _ _
    · rw [if_neg hk] at h
      exact List.mem_cons_of_mem _ (ih h)

/-- C7.  (i) The harvest step appends to each node's accumulator exactly the
finite values recorded for *that* node in the iteration cache — per node
independently, so one node's non-finite sample never drops another node's
sample.  (ii) Consequently every sample in `finalResult.samples` and in
every `NodeSimulationResult` of a completed `runGraphSimulation` is a finite
number. -/
theorem nonFiniteSamplesExcluded :
    (∀ (cache : List (String × JNum)) (acc : List (String × List JNum))
        (id : String) (l : List JNum),
      keyLookup acc id = some l →
      keyLookup (accumulate cache acc) id =
        some (l ++ (cache.filter
          (fun p => decide (p.1 = id) && isFiniteJS p.2)).map Prod.snd)) ∧
    (∀ (g : Graph) (ops : HostOps) (u : ℕ → ℚ) (fuel iters : ℕ)
        (out : GraphSimOutput),
      runGraphSimulation g ops u fuel iters = some out →
      (∀ v ∈ out.finalResult.samples, isFiniteJS v = true) ∧
      (∀ p ∈ out.nodeResults, ∀ v ∈ p.2.samples, isFiniteJS v = true)) := by
  refine ⟨fun cache => accumulate_keyLookup cache, ?_⟩
  intro g ops u fuel iters out hrun
  cases hfind : g.nodes.find? Node.isResult with
  | none =>
    simp only [runGraphSimulation, hfind] at hrun
    cases hrun
    constructor
    · intro v hv; simp [emptySimResult] at hv
    · intro p hp; simp at hp
  | some rnode =>
    cases hit : runIterations g ops u fuel rnode.id iters 0 (initSamples g) with
    | none => simp [runGraphSimulation, hfind, hit] at hrun
    | some pair =>
      obtain ⟨acc, ctr⟩ := pair
      simp only [runGraphSimulation, hfind, hit] at hrun
      have hfin : accFinite acc :=
        runIterations_accFinite g ops u fuel rnode.id iters 0 _ _
          (initSamples_accFinite g) hit
      cases hrun
      constructor
      · intro v hv
        simp only at hv
        cases hkl : keyLookup acc rnode.id with
        | none => rw [hkl] at hv; simp at hv
        | some l =>
          rw [hkl] at hv
          exact hfin _ (keyLookup_mem acc rnode.id l hkl) v (by simpa using hv)
      · intro p hp v hv
        simp only at hp
        obtain ⟨q, hq, rfl⟩ := List.mem_map.mp hp
        have hqmem := List.mem_filter.mp hq
        have hqlen : q.2.length ≠ 0 := by
          have := hqmem.2
          simp at this
          omega
        simp only at hv
        rw [calculateStats_eq ops q.2 hqlen] at hv
        exact hfin q hqmem.1 v hv

/-- Witness for C7: a cache holding one finite and one `NaN` value feeds only
the finite one to its own node's accumulator, and the trivial run's outputs
are all finite. -/
theorem nonFiniteSamplesExcluded_witness :
    (keyLookup (accumulate [("a", num 1), ("b", JNum.nan)] [("a", []), ("b", [])]) "a" =
      some ([] ++ (([("a", num 1), ("b", JNum.nan)].filter
        (fun p => decide (p.1 = "a") && isFiniteJS p.2)).map Prod.snd))) ∧
    (∀ v ∈ (⟨emptySimResult, []⟩ : GraphSimOutput).finalResult.samples,
      isFiniteJS v = true) :=
  ⟨nonFiniteSamplesExcluded.1 [("a", num 1), ("b", JNum.nan)] [("a", []), ("b", [])]
      "a" [] (by simp [keyLookup]),
    (nonFiniteSamplesExcluded.2 ⟨[], []⟩ trivialOps (fun _ => 0) 0 0
      ⟨emptySimResult, []⟩ rfl).1⟩

/-! ### C10: which nodes get a `nodeResults` entry -/

/-- `b` is a direct dependency of `a`: some edge targets `a` with source `b`. -/
def dependsOn (g : Graph) (a b : String) : Prop :=
  ∃ e ∈ g.edges, e.target = a ∧ e.source = b

/-- `b` is reachable from `a` walking edges backwards (the nodes evaluation
of `a` can touch). -/
def Reach (g : Graph) (a b : String) : Prop :=
  Relation.ReflTransGen (dependsOn g) a b

lemma keyLookup_eq_none_iff {α : Type} (l : List (String × α)) (id : String) :
    keyLookup l id = none ↔ id ∉ l.map Prod.fst := by
  induction l with
  | nil => simp [keyLookup]
  | cons p rest ih =>
    obtain ⟨k, v⟩ := p
    simp only [keyLookup, List.map_cons, List.mem_cons]
    by_cases hk : k = id
    · rw [if_pos hk]
      simp [hk]
    · rw [if_neg hk]
      simp only [ih]
      constructor
      · intro h hmem
        rcases hmem with h1 | h1
        · exact hk h1.symm
        · exact h h1
      · intro h h1
        exact h (Or.inr h1)

lemma pushSample_keys (acc : List (String × List JNum)) (id : String) (v : JNum) :
    (pushSample acc id v).map Prod.fst = acc.map Prod.fst := by
  induction acc with
  | nil => rfl
  | cons p rest ih =>
    obtain ⟨k, l⟩ := p
    rw [pushSample_cons]
    by_cases h : k = id
    · rw [if_pos h]
      simpa using ih
    · rw [if_neg h]
      simpa using ih

lemma accumulate_keys (cache : List (String × JNum)) :
    ∀ (acc : List (String × List JNum)),
      (accumulate cache acc).map Prod.fst = acc.map Prod.fst := by
  induction cache with
  | nil => intro acc; rfl
  | cons p rest ih =>
    intro acc
    show (List.foldl _ (if isFiniteJS p.2 then pushSample acc p.1 p.2 else acc) rest).map
      Prod.fst = _
    by_cases hv : isFiniteJS p.2 = true
    · rw [if_pos hv]
      rw [show (List.foldl (fun a p => if isFiniteJS p.2 then pushSample a p.1 p.2 else a)
        (pushSample acc p.1 p.2) rest) = accumulate rest (pushSample acc p.1 p.2) from rfl,
        ih, pushSample_keys]
    · rw [if_neg hv]
      exact ih acc

lemma runIterations_keys (g : Graph) (ops : HostOps) (u : ℕ → ℚ) (fuel : ℕ)
    (resId : String) :
    ∀ (iters ctr : ℕ) (acc : List (String × List JNum))
      (out : List (String × List JNum) × ℕ),
      runIterations g ops u fuel resId iters ctr acc = some out →
      out.1.map Prod.fst = acc.map Prod.fst := by
  intro iters
  induction iters with
  | zero =>
    intro ctr acc out hrun
    cases hrun
    rfl
  | succ n ih =>
    intro ctr acc out hrun
    rw [runIterations] at hrun
    cases hc : computeNodeValue g ops u fuel resId ⟨[], ctr⟩ with
    | none => rw [hc] at hrun; exact absurd hrun (by simp)
    | some r =>
      obtain ⟨val, st⟩ := r
      rw [hc] at hrun
      rw [ih st.ctr (accumulate st.cache acc) out hrun, accumulate_keys]

lemma initSamples_keys_sub (g : Graph) :
    ∀ id ∈ (initSamples g).map Prod.fst, id ∈ g.nodes.map Node.id := by
  have : ∀ (nodes : List Node) (acc : List (String × List JNum)),
      ∀ id ∈ ((nodes.foldl
        (fun acc n => if (keyLookup acc n.id).isSome then acc else acc ++ [(n.id, [])])
        acc).map Prod.fst),
        id ∈ acc.map Prod.fst ∨ id ∈ nodes.map Node.id := by
    intro nodes
    induction nodes with
    | nil => intro acc id h; exact Or.inl h
    | cons n rest ih =>
      intro acc id h
      simp only [List.foldl_cons] at h
      by_cases hs : (keyLookup acc n.id).isSome
      · rw [if_pos hs] at h
        rcases ih acc id h with h1 | h1
        · exact Or.inl h1
        · exact Or.inr (by simp [h1])
      · rw [if_neg hs] at h
        rcases ih _ id h with h1 | h1
        · rcases (by simpa using h1 : id ∈ acc.map Prod.fst ∨ id = n.id) with h2 | h2
          · exact Or.inl h2
          · exact Or.inr (by simp [h2])
        · exact Or.inr (by simp [h1])
  intro id h
  rcases this g.nodes [] id h with h1 | h1
  · simp at h1
  · exact h1

lemma initSamples_keys_nodup (g : Graph) :
    ((initSamples g).map Prod.fst).Nodup := by
  have : ∀ (nodes : List Node) (acc : List (String × List JNum)),
      (acc.map Prod.fst).Nodup →
      (((nodes.foldl
        (fun acc n => if (keyLookup acc n.id).isSome then acc else acc ++ [(n.id, [])])
        acc)).map Prod.fst).Nodup := by
    intro nodes
    induction nodes with
    | nil => intro acc h; exact h
    | cons n rest ih =>
      intro acc h
      simp only [List.foldl_cons]
      by_cases hs : (keyLookup acc n.id).isSome
      · rw [if_pos hs]; exact ih acc h
      · rw [if_neg hs]
        refine ih _ ?_
        have hnot : n.id ∉ acc.map Prod.fst := by
          rw [← keyLookup_eq_none_iff]
          cases hkl : keyLookup acc n.id with
          | none => rfl
          | some l => rw [hkl] at hs; simp at hs
        simp only [List.map_append, List.map_cons, List.map_nil]
        exact List.Nodup.append h (by simp) (by
          intro a ha hb
          simp at hb
          rw [hb] at ha
          exact hnot ha)
  exact this g.nodes [] (by simp)

lemma keyLookup_nodeResults_iff (gmk : (String × List JNum) → NodeSimulationResult) :
    ∀ (acc : List (String × List JNum)), ((acc.map Prod.fst).Nodup) → ∀ (id : String),
      (keyLookup ((acc.filter (fun p => 0 < p.2.length)).map
        (fun p => (p.1, gmk p))) id).isSome ↔
      ∃ l, keyLookup acc id = some l ∧ l ≠ [] := by
  intro acc
  induction acc with
  | nil => intro _ id; simp [keyLookup]
  | cons p rest ih =>
    intro hnodup id
    obtain ⟨k, v⟩ := p
    have hnd : (rest.map Prod.fst).Nodup := (List.nodup_cons.mp hnodup).2
    have hknot : k ∉ rest.map Prod.fst := (List.nodup_cons.mp hnodup).1
    by_cases hk : k = id
    · subst hk
      by_cases hlen : 0 < v.length
      · rw [List.filter_cons_of_pos (by simpa using hlen)]
        simp only [List.map_cons, keyLookup, if_pos rfl]
        constructor
        · intro _
          exact ⟨v, rfl, by simpa [List.length_pos] using hlen⟩
        · intro _
          simp
      · rw [List.filter_cons_of_neg (by simpa using hlen)]
        have hnone : keyLookup ((rest.filter (fun p => 0 < p.2.length)).map
            (fun p => (p.1, gmk p))) k = none := by
          rw [keyLookup_eq_none_iff]
          intro hmem
          apply hknot
          simp only [List.map_map, List.mem_map] at hmem
          obtain ⟨q, hq, hqk⟩ := hmem
          exact List.mem_map.mpr ⟨q, List.mem_of_mem_filter hq, hqk⟩
        rw [hnone]
        simp only [keyLookup, if_pos rfl, Option.isSome_none]
        constructor
        · intro h; cases h
        · rintro ⟨l, hl, hlne⟩
          cases hl
          exact absurd (by simpa [List.length_pos] using hlne) hlen
    · have hstep : keyLookup ((((k, v) :: rest).filter (fun p => 0 < p.2.length)).map
          (fun p => (p.1, gmk p))) id =
            keyLookup ((rest.filter (fun p => 0 < p.2.length)).map
              (fun p => (p.1, gmk p))) id := by
        by_cases hlen : 0 < v.length
        · rw [List.filter_cons_of_pos (by simpa using hlen)]
          simp only [List.map_cons, keyLookup]
          rw [if_neg hk]
        · rw [List.filter_cons_of_neg (by simpa using hlen)]
      rw [hstep]
      simp only [keyLookup, if_neg hk]
      exact ih hnd id

lemma cacheSet_keys (cache : List (String × JNum)) (id : String) (v : JNum) :
    (cacheSet cache id v).map Prod.fst = cache.map Prod.fst ++ [id] := by
  simp [cacheSet]

lemma incomingOf_dependsOn (g : Graph) (nid : String) (e : IncEdge)
    (he : e ∈ incomingOf g nid) : dependsOn g nid e.sourceId := by
  simp only [incomingOf, List.mem_map, List.mem_filter] at he
  obtain ⟨ed, ⟨hed, htgt⟩, hmk⟩ := he
  exact ⟨ed, hed, by simpa using htgt, by rw [← hmk]⟩

lemma resolveOpInputs_cacheKeys (f : ComputeFn) (Q : String → Prop) :
    ∀ (edges : List IncEdge),
      (∀ e ∈ edges, ∀ st v st', f e.sourceId st = some (v, st') →
        ∀ k ∈ st'.cache.map Prod.fst, k ∈ st.cache.map Prod.fst ∨ Q k) →
      ∀ (isF : Bool) (a b : JNum) (st : EvalState) (out : JNum × JNum × EvalState),
        resolveOpInputs f edges isF a b st = some out →
        ∀ k ∈ out.2.2.cache.map Prod.fst, k ∈ st.cache.map Prod.fst ∨ Q k := by
  intro edges
  induction edges with
  | nil =>
    intro _ isF a b st out h k hk
    cases h
    exact Or.inl hk
  | cons e rest ih =>
    intro hf isF a b st out h k hk
    rw [resolveOpInputs] at h
    split at h
    next => cases h
    next v st' heq =>
      have hstep := hf e (List.mem_cons_self _ _) st v st' heq
      have htail := fun e' he' => hf e' (List.mem_cons_of_mem _ he')
      split at h <;>
        (rcases ih htail _ _ _ _ _ h k hk with h1 | h1
         · rcases hstep k h1 with h2 | h2
           · exact Or.inl h2
           · exact Or.inr h2
         · exact Or.inr h1)

lemma resolveFnInputs_cacheKeys (f : ComputeFn) (Q : String → Prop) :
    ∀ (edges : List IncEdge),
      (∀ e ∈ edges, ∀ st v st', f e.sourceId st = some (v, st') →
        ∀ k ∈ st'.cache.map Prod.fst, k ∈ st.cache.map Prod.fst ∨ Q k) →
      ∀ (isF : Bool) (a b : JNum) (st : EvalState) (out : JNum × JNum × EvalState),
        resolveFnInputs f edges isF a b st = some out →
        ∀ k ∈ out.2.2.cache.map Prod.fst, k ∈ st.cache.map Prod.fst ∨ Q k := by
  intro edges
  induction edges with
  | nil =>
    intro _ isF a b st out h k hk
    cases h
    exact Or.inl hk
  | cons e rest ih =>
    intro hf isF a b st out h k hk
    rw [resolveFnInputs] at h
    split at h
    next => cases h
    next v st' heq =>
      have hstep := hf e (List.mem_cons_self _ _) st v st' heq
      have htail := fun e' he' => hf e' (List.mem_cons_of_mem _ he')
      split at h <;>
        (rcases ih htail _ _ _ _ _ h k hk with h1 | h1
         · rcases hstep k h1 with h2 | h2
           · exact Or.inl h2
           · exact Or.inr h2
         · exact Or.inr h1)

lemma resolveCondInputs_cacheKeys (f : ComputeFn) (Q : String → Prop) :
    ∀ (edges : List IncEdge),
      (∀ e ∈ edges, ∀ st v st', f e.sourceId st = some (v, st') →
        ∀ k ∈ st'.cache.map Prod.fst, k ∈ st.cache.map Prod.fst ∨ Q k) →
      ∀ (vals : JNum × JNum × JNum × JNum) (st : EvalState)
        (out : (JNum × JNum × JNum × JNum) × EvalState),
        resolveCondInputs f edges vals st = some out →
        ∀ k ∈ out.2.cache.map Prod.fst, k ∈ st.cache.map Prod.fst ∨ Q k := by
  intro edges
  induction edges with
  | nil =>
    intro _ vals st out h k hk
    cases h
    exact Or.inl hk
  | cons e rest ih =>
    intro hf vals st out h k hk
    obtain ⟨a, b, t, e'⟩ := vals
    rw [resolveCondInputs] at h
    split at h
    next => cases h
    next v st' heq =>
      have hstep := hf e (List.mem_cons_self _ _) st v st' heq
      have htail := fun e' he' => hf e' (List.mem_cons_of_mem _ he')
      rcases ih htail _ _ _ h k hk with h1 | h1
      · rcases hstep k h1 with h2 | h2
        · exact Or.inl h2
        · exact Or.inr h2
      · exact Or.inr h1

lemma foldCompute_cacheKeys (f : ComputeFn) (op : JNum → JNum → JNum)
    (Q : String → Prop) :
    ∀ (edges : List IncEdge),
      (∀ e ∈ edges, ∀ st v st', f e.sourceId st = some (v, st') →
        ∀ k ∈ st'.cache.map Prod.fst, k ∈ st.cache.map Prod.fst ∨ Q k) →
      ∀ (acc : JNum) (st : EvalState) (out : JNum × EvalState),
        foldCompute f op edges acc st = some out →
        ∀ k ∈ out.2.cache.map Prod.fst, k ∈ st.cache.map Prod.fst ∨ Q k := by
  intro edges
  induction edges with
  | nil =>
    intro _ acc st out h k hk
    cases h
    exact Or.inl hk
  | cons e rest ih =>
    intro hf acc st out h k hk
    rw [foldCompute] at h
    split at h
    next => cases h
    next v st' heq =>
      have hstep := hf e (List.mem_cons_self _ _) st v st' heq
      have htail := fun e' he' => hf e' (List.mem_cons_of_mem _ he')
      rcases ih htail _ _ _ h k hk with h1 | h1
      · rcases hstep k h1 with h2 | h2
        · exact Or.inl h2
        · exact Or.inr h2
      · exact Or.inr h1

lemma mem_keys_cacheSet {cache : List (String × JNum)} {nid k : String} {value : JNum}
    (hk : k ∈ (cacheSet cache nid value).map Prod.fst) :
    k ∈ cache.map Prod.fst ∨ k = nid := by
  rw [cacheSet_keys] at hk
  rcases List.mem_append.mp hk with h | h
  · exact Or.inl h
  · exact Or.inr (by simpa using h)

lemma computeNodeValue_cacheKeys (g : Graph) (ops : HostOps) (u : ℕ → ℚ) :
    ∀ (fuel : ℕ) (nid : String) (st : EvalState) (v : JNum) (st' : EvalState),
      computeNodeValue g ops u fuel nid st = some (v, st') →
      ∀ k ∈ st'.cache.map Prod.fst, k ∈ st.cache.map Prod.fst ∨ Reach g nid k := by
  intro fuel
  induction fuel with
  | zero => intro nid st v st' h; cases h
  | succ fuel ih =>
    intro nid st v st' h k hk
    have hedge : ∀ e ∈ incomingOf g nid, ∀ (st₀ : EvalState) (v₀ : JNum) (st₀' : EvalState),
        computeNodeValue g ops u fuel e.sourceId st₀ = some (v₀, st₀') →
        ∀ k' ∈ st₀'.cache.map Prod.fst,
          k' ∈ st₀.cache.map Prod.fst ∨ Reach g nid k' := by
      intro e he st₀ v₀ st₀' hc k' hk'
      rcases ih e.sourceId st₀ v₀ st₀' hc k' hk' with h1 | h1
      · exact Or.inl h1
      · exact Or.inr (Relation.ReflTransGen.head (incomingOf_dependsOn g nid e he) h1)
    rw [computeNodeValue] at h
    split at h
    next w heq =>
      cases h; exact Or.inl hk
    next heqmiss =>
      split at h
      next heqfind =>
        cases h; exact Or.inl hk
      next node heqfind =>
        simp only [] at h
        split at h
        next => cases h
        next value st₂ heqres =>
          cases h
          rcases mem_keys_cacheSet hk with hmem | hmem
          case inr => exact Or.inr (hmem ▸ Relation.ReflTransGen.refl)
          suffices hsub : ∀ k' ∈ st₂.cache.map Prod.fst,
              k' ∈ st.cache.map Prod.fst ∨ Reach g nid k' from hsub k hmem
          obtain ⟨nid2, ndata⟩ := node
          cases ndata with
          | assumption name mn mx dist =>
            simp only [] at heqres
            cases heqres
            exact fun k' hk' => Or.inl hk'
          | constant value' =>
            simp only [] at heqres
            cases heqres
            exact fun k' hk' => Or.inl hk'
          | operation op =>
            simp only [] at heqres
            split at heqres
            next => cases heqres
            next inputA inputB st₁ heqro =>
              have hro := resolveOpInputs_cacheKeys
                (fun id s => computeNodeValue g ops u fuel id s) (Reach g nid)
                (incomingOf g nid) hedge true (num 0) (num 0) st _ heqro
              cases op with
              | multiply => cases heqres; exact fun k' hk' => hro k' hk'
              | divide => cases heqres; exact fun k' hk' => hro k' hk'
              | add => cases heqres; exact fun k' hk' => hro k' hk'
              | subtract => cases heqres; exact fun k' hk' => hro k' hk'
              | sum =>
                have hfc := foldCompute_cacheKeys
                  (fun id s => computeNodeValue g ops u fuel id s) jadd (Reach g nid)
                  (incomingOf g nid) hedge (num 0) st₁ _ heqres
                intro k' hk'
                rcases hfc k' hk' with h2 | h2
                · exact hro k' h2
                · exact Or.inr h2
              | product =>
                have hfc := foldCompute_cacheKeys
                  (fun id s => computeNodeValue g ops u fuel id s) jmul (Reach g nid)
                  (incomingOf g nid) hedge (num 1) st₁ _ heqres
                intro k' hk'
                rcases hfc k' hk' with h2 | h2
                · exact hro k' h2
                · exact Or.inr h2
          | function func param =>
            simp only [] at heqres
            split at heqres
            next => cases heqres
            next inputA inputB st₁ heqrf =>
              have hrf := resolveFnInputs_cacheKeys
                (fun id s => computeNodeValue g ops u fuel id s) (Reach g nid)
                (incomingOf g nid) hedge true (num 0) (num 0) st _ heqrf
              cases heqres
              exact fun k' hk' => hrf k' hk'
          | conditional cmp =>
            simp only [] at heqres
            split at heqres
            next => cases heqres
            next a b t e st₁ heqrc =>
              have hrc := resolveCondInputs_cacheKeys
                (fun id s => computeNodeValue g ops u fuel id s) (Reach g nid)
                (incomingOf g nid) hedge (num 0, num 0, num 0, num 0) st _ heqrc
              cases heqres
              exact fun k' hk' => hrc k' hk'
          | clamp mn mx =>
            simp only [] at heqres
            split at heqres
            next heqinc =>
              cases heqres
              exact fun k' hk' => Or.inl hk'
            next e0 tail heqinc =>
              split at heqres
              next => cases heqres
              next v0 st₁ heqc =>
                have he0 : e0 ∈ incomingOf g nid := by
                  rw [heqinc]; exact List.mem_cons_self _ _
                have hc0 := hedge e0 he0 st v0 st₁ heqc
                cases heqres
                exact fun k' hk' => hc0 k' hk'
          | result =>
            simp only [] at heqres
            split at heqres
            next heqinc =>
              cases heqres
              exact fun k' hk' => Or.inl hk'
            next e0 tail heqinc =>
              have he0 : e0 ∈ incomingOf g nid := by
                rw [heqinc]; exact List.mem_cons_self _ _
              exact fun k' hk' => hedge e0 he0 st _ _ heqres k' hk'
          | other =>
            simp only [] at heqres
            cases heqres
            exact fun k' hk' => Or.inl hk'

lemma accumulate_keyLookup_not_mem (cache : List (String × JNum))
    (acc : List (String × List JNum)) (id : String)
    (hid : id ∉ cache.map Prod.fst) :
    keyLookup (accumulate cache acc) id = keyLookup acc id := by
  cases hkl : keyLookup acc id with
  | none =>
    rw [keyLookup_eq_none_iff, accumulate_keys]
    rw [keyLookup_eq_none_iff] at hkl
    exact hkl
  | some l =>
    rw [accumulate_keyLookup cache acc id l hkl]
    have hfil : cache.filter (fun p => decide (p.1 = id) && isFiniteJS p.2) = [] := by
      rw [List.filter_eq_nil]
      intro p hp
      simp only [Bool.and_eq_true, decide_eq_true_eq, not_and]
      intro h1 _
      exact hid (List.mem_map.mpr ⟨p, hp, h1⟩)
    rw [hfil]
    simp

lemma runIterations_unreachable (g : Graph) (ops : HostOps) (u : ℕ → ℚ)
    (fuel : ℕ) (rid : String) :
    ∀ (iters ctr : ℕ) (acc : List (String × List JNum))
      (out : List (String × List JNum) × ℕ),
      runIterations g ops u fuel rid iters ctr acc = some out →
      ∀ id, ¬ Reach g rid id → keyLookup out.1 id = keyLookup acc id := by
  intro iters
  induction iters with
  | zero =>
    intro ctr acc out hrun id hunreach
    cases hrun
    rfl
  | succ n ih =>
    intro ctr acc out hrun id hunreach
    rw [runIterations] at hrun
    cases hc : computeNodeValue g ops u fuel rid ⟨[], ctr⟩ with
    | none => rw [hc] at hrun; exact absurd hrun (by simp)
    | some r =>
      obtain ⟨val, st⟩ := r
      rw [hc] at hrun
      have hkeys := computeNodeValue_cacheKeys g ops u fuel rid ⟨[], ctr⟩ val st hc
      have hid : id ∉ st.cache.map Prod.fst := by
        intro hmem
        rcases hkeys id hmem with h1 | h1
        · simp at h1
        · exact hunreach h1
      rw [ih st.ctr (accumulate st.cache acc) out hrun id hunreach,
        accumulate_keyLookup_not_mem st.cache acc id hid]

lemma initSamples_values_empty (g : Graph) :
    ∀ p ∈ initSamples g, p.2 = [] := by
  have : ∀ (nodes : List Node) (acc : List (String × List JNum)),
      (∀ p ∈ acc, p.2 = []) →
      ∀ p ∈ nodes.foldl
        (fun acc n => if (keyLookup acc n.id).isSome then acc else acc ++ [(n.id, [])])
        acc, p.2 = [] := by
    intro nodes
    induction nodes with
    | nil => intro acc h; exact h
    | cons n rest ih =>
      intro acc h
      simp only [List.foldl_cons]
      by_cases hs : (keyLookup acc n.id).isSome
      · rw [if_pos hs]; exact ih acc h
      · rw [if_neg hs]
        refine ih _ ?_
        intro p hp
        rcases List.mem_append.mp hp with h1 | h1
        · exact h p h1
        · rw [List.mem_singleton.mp h1]
  exact this g.nodes [] (by intro p hp; simp at hp)

/-- C10.  For a graph with a result node, in a completed run:
`nodeResults` has an entry for `id` iff `id`'s accumulator gathered at least
one (finite) sample; every keyed node is one of the graph's nodes; a node
not backwards-reachable from the result node never has an entry;
`finalResult.samples` is exactly the result node's accumulated sample list,
and when it is empty the final statistics are all zero. -/
theorem nodeResultsCharacterization :
    ∀ (g : Graph) (ops : HostOps) (u : ℕ → ℚ) (fuel iters : ℕ)
      (rnode : Node) (acc : List (String × List JNum)) (ctrEnd : ℕ)
      (out : GraphSimOutput),
      g.nodes.find? Node.isResult = some rnode →
      runIterations g ops u fuel rnode.id iters 0 (initSamples g) =
        some (acc, ctrEnd) →
      runGraphSimulation g ops u fuel iters = some out →
      (∀ id, (keyLookup out.nodeResults id).isSome ↔
        ∃ l, keyLookup acc id = some l ∧ l ≠ []) ∧
      (∀ id, (keyLookup out.nodeResults id).isSome → id ∈ g.nodes.map Node.id) ∧
      (∀ id, ¬ Reach g rnode.id id → keyLookup out.nodeResults id = none) ∧
      out.finalResult.samples = (keyLookup acc rnode.id).getD [] ∧
      ((keyLookup acc rnode.id).getD [] = [] →
        out.finalResult.mean = num 0 ∧ out.finalResult.stdDev = num 0 ∧
        out.finalResult.percentiles = ⟨num 0, num 0, num 0, num 0, num 0⟩) := by
  intro g ops u fuel iters rnode acc ctrEnd out hfind hit hrun
  simp only [runGraphSimulation, hfind, hit] at hrun
  cases hrun
  have hkeys : acc.map Prod.fst = (initSamples g).map Prod.fst :=
    runIterations_keys g ops u fuel rnode.id iters 0 _ _ hit
  have hnodup : (acc.map Prod.fst).Nodup := by
    rw [hkeys]; exact initSamples_keys_nodup g
  have hiff := keyLookup_nodeResults_iff
    (fun p => ⟨p.1, (calculateStats ops p.2).samples,
      (calculateStats ops p.2).percentiles, (calculateStats ops p.2).mean,
      (calculateStats ops p.2).stdDev⟩) acc hnodup
  refine ⟨hiff, ?_, ?_, rfl, ?_⟩
  · intro id hsome
    obtain ⟨l, hl, _⟩ := (hiff id).mp hsome
    have : id ∈ acc.map Prod.fst := by
      by_contra hno
      rw [← keyLookup_eq_none_iff] at hno
      rw [hno] at hl
      cases hl
    rw [hkeys] at this
    exact initSamples_keys_sub g id this
  · intro id hunreach
    have hinit := runIterations_unreachable g ops u fuel rnode.id iters 0
      (initSamples g) (acc, ctrEnd) hit id hunreach
    rw [← Option.not_isSome_iff_eq_none]
    intro hsome
    obtain ⟨l, hl, hlne⟩ := (hiff id).mp hsome
    rw [hinit] at hl
    exact hlne (initSamples_values_empty g (id, l) (keyLookup_mem _ _ _ hl))
  · intro hemp
    show (calculateStats ops ((keyLookup acc rnode.id).getD [])).mean = num 0 ∧ _ ∧ _
    rw [hemp]
    exact ⟨rfl, rfl, rfl⟩

/-- Witness for C10: the zero-iteration run of the end-to-end graph. -/
theorem nodeResultsCharacterization_witness :
    (⟨emptySimResult, []⟩ : GraphSimOutput).finalResult.samples =
      (keyLookup (initSamples constantDoubleGraph) "r").getD [] :=
  (nodeResultsCharacterization constantDoubleGraph trivialOps (fun _ => 0) 4 0
    ⟨"r", .result⟩ (initSamples constantDoubleGraph) 0 ⟨emptySimResult, []⟩
    rfl rfl rfl).2.2.2.1

/-! ### C9: termination on acyclic graphs -/

/-- The finite universe of node ids the evaluation of `rid` can visit: `rid`
itself and every edge source. -/
def allIds (g : Graph) (rid : String) : Finset String :=
  insert rid (g.edges.map Edge.source).toFinset

lemma reach_mem_allIds (g : Graph) (rid : String) :
    ∀ x, Reach g rid x → x ∈ allIds g rid := by
  intro x hx
  induction hx with
  | refl => exact Finset.mem_insert_self _ _
  | tail _ hdep ih =>
    obtain ⟨e, he, _, hsrc⟩ := hdep
    refine Finset.mem_insert_of_mem ?_
    rw [List.mem_toFinset]
    exact List.mem_map.mpr ⟨e, he, hsrc⟩

lemma nodup_length_le_card (s : Finset String) :
    ∀ (l : List String), l.Nodup → (∀ x ∈ l, x ∈ s) → l.length ≤ s.card := by
  intro l hnd hsub
  calc l.length = l.toFinset.card := (List.toFinset_card_of_nodup hnd).symm
    _ ≤ s.card := Finset.card_le_card (fun x hx => hsub x (List.mem_toFinset.mp hx))

lemma chain_transGen (g : Graph) :
    ∀ (nid : String) (path : List String),
      List.Chain (fun a b => dependsOn g b a) nid path →
      ∀ x ∈ path, Relation.TransGen (dependsOn g) x nid := by
  intro nid path
  induction path generalizing nid with
  | nil => intro _ x hx; cases hx
  | cons p rest ih =>
    intro hchain x hx
    rcases List.chain_cons.mp hchain with ⟨hdep, hchain'⟩
    rcases List.mem_cons.mp hx with rfl | hx
    · exact Relation.TransGen.single hdep
    · exact Relation.TransGen.tail (ih p hchain' x hx) hdep

lemma resolveOpInputs_isSome (f : ComputeFn) :
    ∀ (edges : List IncEdge),
      (∀ e ∈ edges, ∀ st, (f e.sourceId st).isSome) →
      ∀ (isF : Bool) (a b : JNum) (st : EvalState),
        (resolveOpInputs f edges isF a b st).isSome := by
  intro edges
  induction edges with
  | nil => intro _ isF a b st; rfl
  | cons e rest ih =>
    intro hf isF a b st
    have hsome := hf e (List.mem_cons_self _ _) st
    rw [resolveOpInputs]
    split
    next heq => rw [heq] at hsome; simp at hsome
    next v st' heq =>
      have htail := fun e' he' => hf e' (List.mem_cons_of_mem _ he')
      split
      · exact ih htail _ _ _ _
      · exact ih htail _ _ _ _

lemma resolveFnInputs_isSome (f : ComputeFn) :
    ∀ (edges : List IncEdge),
      (∀ e ∈ edges, ∀ st, (f e.sourceId st).isSome) →
      ∀ (isF : Bool) (a b : JNum) (st : EvalState),
        (resolveFnInputs f edges isF a b st).isSome := by
  intro edges
  induction edges with
  | nil => intro _ isF a b st; rfl
  | cons e rest ih =>
    intro hf isF a b st
    have hsome := hf e (List.mem_cons_self _ _) st
    rw [resolveFnInputs]
    split
    next heq => rw [heq] at hsome; simp at hsome
    next v st' heq =>
      have htail := fun e' he' => hf e' (List.mem_cons_of_mem _ he')
      split
      · exact ih htail _ _ _ _
      · exact ih htail _ _ _ _

lemma resolveCondInputs_isSome (f : ComputeFn) :
    ∀ (edges : List IncEdge),
      (∀ e ∈ edges, ∀ st, (f e.sourceId st).isSome) →
      ∀ (vals : JNum × JNum × JNum × JNum) (st : EvalState),
        (resolveCondInputs f edges vals st).isSome := by
  intro edges
  induction edges with
  | nil => intro _ vals st; rfl
  | cons e rest ih =>
    intro hf vals st
    obtain ⟨a, b, t, e'⟩ := vals
    have hsome := hf e (List.mem_cons_self _ _) st
    rw [resolveCondInputs]
    split
    next heq => rw [heq] at hsome; simp at hsome
    next v st' heq =>
      exact ih (fun e' he' => hf e' (List.mem_cons_of_mem _ he')) _ _

lemma foldCompute_isSome (f : ComputeFn) (op : JNum → JNum → JNum) :
    ∀ (edges : List IncEdge),
      (∀ e ∈ edges, ∀ st, (f e.sourceId st).isSome) →
      ∀ (acc : JNum) (st : EvalState),
        (foldCompute f op edges acc st).isSome := by
  intro edges
  induction edges with
  | nil => intro _ acc st; rfl
  | cons e rest ih =>
    intro hf acc st
    have hsome := hf e (List.mem_cons_self _ _) st
    rw [foldCompute]
    split
    next heq => rw [heq] at hsome; simp at hsome
    next v st' heq =>
      exact ih (fun e' he' => hf e' (List.mem_cons_of_mem _ he')) _ _

lemma computeNodeValue_isSome (g : Graph) (ops : HostOps) (u : ℕ → ℚ) (rid : String)
    (hacyc : ∀ x, Reach g rid x → ¬ Relation.TransGen (dependsOn g) x x) :
    ∀ (fuel : ℕ) (nid : String) (path : List String) (st : EvalState),
      Reach g rid nid →
      (∀ p ∈ path, Reach g rid p) →
      List.Chain (fun a b => dependsOn g b a) nid path →
      (nid :: path).Nodup →
      (allIds g rid).card + 1 ≤ fuel + (nid :: path).length →
      (computeNodeValue g ops u fuel nid st).isSome := by
  intro fuel
  induction fuel with
  | zero =>
    intro nid path st hreach hpreach hchain hnodup hcard
    exfalso
    have hlen : (nid :: path).length ≤ (allIds g rid).card := by
      refine nodup_length_le_card _ _ hnodup ?_
      intro x hx
      rcases List.mem_cons.mp hx with rfl | hx'
      · exact reach_mem_allIds g rid x hreach
      · exact reach_mem_allIds g rid x (hpreach x hx')
    omega
  | succ fuel ih =>
    intro nid path st hreach hpreach hchain hnodup hcard
    have hchild : ∀ e ∈ incomingOf g nid, ∀ st₀ : EvalState,
        (computeNodeValue g ops u fuel e.sourceId st₀).isSome := by
      intro e he st₀
      have hdep : dependsOn g nid e.sourceId := incomingOf_dependsOn g nid e he
      have hreachc : Reach g rid e.sourceId := Relation.ReflTransGen.tail hreach hdep
      have hfresh : e.sourceId ∉ nid :: path := by
        intro hmem
        rcases List.mem_cons.mp hmem with heqn | hmem'
        · exact hacyc nid hreach (Relation.TransGen.single (heqn ▸ hdep))
        · exact hacyc e.sourceId hreachc
            (Relation.TransGen.tail (chain_transGen g nid path hchain e.sourceId hmem') hdep)
      refine ih e.sourceId (nid :: path) st₀ hreachc ?_
        (List.chain_cons.mpr ⟨hdep, hchain⟩)
        (List.nodup_cons.mpr ⟨hfresh, hnodup⟩) ?_
      · intro p hp
        rcases List.mem_cons.mp hp with rfl | hp'
        · exact hreach
        · exact hpreach p hp'
      · simp only [List.length_cons] at hcard ⊢
        omega
    rw [computeNodeValue]
    split
    next => rfl
    next heqmiss =>
      split
      next => rfl
      next node heqfind =>
        obtain ⟨nid2, ndata⟩ := node
        cases ndata with
        | assumption name mn mx dist => simp only []; rfl
        | constant value => simp only []; rfl
        | operation op =>
          simp only []
          obtain ⟨⟨inputA, inputB, st₁⟩, heqro⟩ :=
            Option.isSome_iff_exists.mp
              (resolveOpInputs_isSome (fun id s => computeNodeValue g ops u fuel id s)
                (incomingOf g nid) hchild true (num 0) (num 0) st)
          rw [heqro]
          cases op with
          | multiply => simp only []; rfl
          | divide => simp only []; rfl
          | add => simp only []; rfl
          | subtract => simp only []; rfl
          | sum =>
            simp only []
            obtain ⟨⟨w, st₂⟩, heqfc⟩ :=
              Option.isSome_iff_exists.mp
                (foldCompute_isSome (fun id s => computeNodeValue g ops u fuel id s)
                  jadd (incomingOf g nid) hchild (num 0) st₁)
            rw [heqfc]
            rfl
          | product =>
            simp only []
            obtain ⟨⟨w, st₂⟩, heqfc⟩ :=
              Option.isSome_iff_exists.mp
                (foldCompute_isSome (fun id s => computeNodeValue g ops u fuel id s)
                  jmul (incomingOf g nid) hchild (num 1) st₁)
            rw [heqfc]
            rfl
        | function func param =>
          simp only []
          obtain ⟨⟨inputA, inputB, st₁⟩, heqrf⟩ :=
            Option.isSome_iff_exists.mp
              (resolveFnInputs_isSome (fun id s => computeNodeValue g ops u fuel id s)
                (incomingOf g nid) hchild true (num 0) (num 0) st)
          rw [heqrf]
          rfl
        | conditional cmp =>
          simp only []
          obtain ⟨⟨⟨a, b, t, e'⟩, st₁⟩, heqrc⟩ :=
            Option.isSome_iff_exists.mp
              (resolveCondInputs_isSome (fun id s => computeNodeValue g ops u fuel id s)
                (incomingOf g nid) hchild (num 0, num 0, num 0, num 0) st)
          rw [heqrc]
          rfl
        | clamp mn mx =>
          simp only []
          cases hinc : incomingOf g nid with
          | nil => rfl
          | cons e0 tail =>
            simp only []
            obtain ⟨⟨v0, st₁⟩, heqc⟩ :=
              Option.isSome_iff_exists.mp
                (hchild e0 (by rw [hinc]; exact List.mem_cons_self _ _) st)
            rw [heqc]
            rfl
        | result =>
          simp only []
          cases hinc : incomingOf g nid with
          | nil => rfl
          | cons e0 tail =>
            simp only []
            obtain ⟨⟨v0, st₁⟩, heqc⟩ :=
              Option.isSome_iff_exists.mp
                (hchild e0 (by rw [hinc]; exact List.mem_cons_self _ _) st)
            rw [heqc]
            rfl
        | other => simp only []; rfl

lemma runIterations_isSome (g : Graph) (ops : HostOps) (u : ℕ → ℚ) (fuel : ℕ)
    (rid : String)
    (hcompute : ∀ (st : EvalState), (computeNodeValue g ops u fuel rid st).isSome) :
    ∀ (iters ctr : ℕ) (acc : List (String × List JNum)),
      (runIterations g ops u fuel rid iters ctr acc).isSome := by
  intro iters
  induction iters with
  | zero => intro ctr acc; rfl
  | succ n ih =>
    intro ctr acc
    rw [runIterations]
    obtain ⟨⟨val, st⟩, heq⟩ := Option.isSome_iff_exists.mp (hcompute ⟨[], ctr⟩)
    rw [heq]
    exact ih _ _

/-- C9.  If the directed edge relation, restricted to the nodes reachable
backwards from the result node, contains no cycle, then the evaluation
terminates: with any fuel at least the number of candidate node ids, the
fuel-indexed `runGraphSimulation` never exhausts its fuel (`isSome`), for
every iteration count, uniform stream and host interpretation.  The fuel
counter is exactly what the shallow embedding adds in place of the
unguarded TS recursion, so `isSome` at a structurally determined fuel is
the statement that the original recursion is well-founded. -/
theorem acyclicTermination (g : Graph) (ops : HostOps) (u : ℕ → ℚ)
    (iters fuel : ℕ)
    (h : ∀ rnode, g.nodes.find? Node.isResult = some rnode →
      (∀ x, Reach g rnode.id x → ¬ Relation.TransGen (dependsOn g) x x) ∧
      (allIds g rnode.id).card ≤ fuel) :
    (runGraphSimulation g ops u fuel iters).isSome := by
  rw [runGraphSimulation]
  split
  next => rfl
  next rnode heqfind =>
    obtain ⟨hacyc, hcard⟩ := h rnode heqfind
    have hcompute : ∀ st : EvalState,
        (computeNodeValue g ops u fuel rnode.id st).isSome := by
      intro st
      refine computeNodeValue_isSome g ops u rnode.id hacyc fuel rnode.id [] st
        Relation.ReflTransGen.refl (by intro p hp; cases hp) List.Chain.nil
        (by simp) ?_
      simp only [List.length_cons, List.length_nil]
      omega
    obtain ⟨⟨acc, ctrE⟩, heqit⟩ := Option.isSome_iff_exists.mp
      (runIterations_isSome g ops u fuel rnode.id hcompute iters 0 (initSamples g))
    rw [heqit]
    rfl

/-- The one-node graph (a result node, no edges) witnessing C9. -/
def loneResultGraph : Graph where
  nodes := [⟨"r", .result⟩]
  edges := []

/-- Witness for C9: the lone-result graph is acyclic and its simulation
completes with fuel 1. -/
theorem acyclicTermination_witness :
    (runGraphSimulation loneResultGraph trivialOps (fun _ => 0) 1 2).isSome := by
  refine acyclicTermination loneResultGraph trivialOps (fun _ => 0) 2 1 ?_
  intro rnode heq
  have h1 : (some (Node.mk "r" .result) : Option Node) = some rnode := heq
  cases h1
  constructor
  · intro x _ hcyc
    have hdep : ∀ a b : String, ¬ dependsOn loneResultGraph a b := by
      rintro a b ⟨e, he, -⟩
      simp [loneResultGraph] at he
    cases hcyc with
    | single hstep => exact hdep _ _ hstep
    | tail _ hstep => exact hdep _ _ hstep
  · simp [allIds, loneResultGraph]
